import Mathlib

/-!
# Verification of the CDCL SAT solver core of `new_sat_solver.c`

Shallow embedding of the parts of `src/solvers/cdcl/new_sat_solver.c` that the
claims concern, with theorems settling each claim.

Conventions (from the source):
* a variable is a `Nat`; literal `l = 2·var | sign`; negation is `l ^^^ 1`;
* truth values are packed in a byte: `VAL_UNDEF_FALSE = 0`, `VAL_UNDEF_TRUE = 1`,
  `VAL_FALSE = 2`, `VAL_TRUE = 3` (see the comment in `preferred_literal` and the
  `^= 0x2` updates in `backtrack`);
* machine integers are modelled as `Nat`, with explicit `% 2^w` where C truncates.
-/

namespace NewSatSolver

/-- `not(l) = l ^ 1` — literal negation (new_sat_solver.h semantics, used throughout). -/
def lit_not (l : Nat) : Nat := l ^^^ 1

/-- `var_of(l) = l >> 1`. -/
def var_of (l : Nat) : Nat := l / 2

/-- `pos_lit(x) = 2x`. -/
def pos_lit (x : Nat) : Nat := 2 * x

/-- `neg_lit(x) = 2x + 1`. -/
def neg_lit (x : Nat) : Nat := 2 * x + 1

/-- `sign_of_lit(l) = l & 1`. -/
def sign_of_lit (l : Nat) : Nat := l % 2

def VAL_UNDEF_FALSE : Nat := 0
def VAL_UNDEF_TRUE : Nat := 1
def VAL_FALSE : Nat := 2
def VAL_TRUE : Nat := 3

/-- `opposite_val(v) = v ^ 1`. -/
def opposite_val (v : Nat) : Nat := v ^^^ 1

theorem two_mul_xor_one (v : Nat) : (2 * v) ^^^ 1 = 2 * v + 1 := by
  have h1 : (1 : Nat) = Nat.bit true 0 := rfl
  have h2 : 2 * v = Nat.bit false v := by simp [Nat.bit_val]
  rw [h2, h1, Nat.xor_bit]
  simp [Nat.bit_val]

theorem two_mul_add_one_xor_one (v : Nat) : (2 * v + 1) ^^^ 1 = 2 * v := by
  have h1 : (1 : Nat) = Nat.bit true 0 := rfl
  have h2 : 2 * v + 1 = Nat.bit true v := by simp [Nat.bit_val]
  rw [h2, h1, Nat.xor_bit]
  simp [Nat.bit_val]

theorem lit_not_pos (x : Nat) : lit_not (pos_lit x) = neg_lit x := by
  simp [lit_not, pos_lit, neg_lit, two_mul_xor_one]

theorem lit_not_neg (x : Nat) : lit_not (neg_lit x) = pos_lit x := by
  simp [lit_not, pos_lit, neg_lit, two_mul_add_one_xor_one]

/-- Every literal is `pos_lit` or `neg_lit` of its variable. -/
theorem lit_eq_pos_or_neg (l : Nat) : l = pos_lit (var_of l) ∨ l = neg_lit (var_of l) := by
  rcases Nat.even_or_odd l with h | h
  · left; obtain ⟨k, hk⟩ := h; simp [pos_lit, var_of, hk]; omega
  · right; obtain ⟨k, hk⟩ := h; simp [neg_lit, var_of, hk]; omega

theorem var_of_pos (x : Nat) : var_of (pos_lit x) = x := by
  simp [var_of, pos_lit]

theorem var_of_neg (x : Nat) : var_of (neg_lit x) = x := by
  simp [var_of, neg_lit]
  omega

theorem var_of_lit_not (l : Nat) : var_of (lit_not l) = var_of l := by
  rcases lit_eq_pos_or_neg l with h | h <;> rw [h]
  · rw [lit_not_pos]; simp [pos_lit, neg_lit, var_of]; omega
  · rw [lit_not_neg]; simp [pos_lit, neg_lit, var_of]; omega

theorem lit_not_ne (l : Nat) : lit_not l ≠ l := by
  rcases lit_eq_pos_or_neg l with h | h <;> rw [h]
  · rw [lit_not_pos]; simp [pos_lit, neg_lit]
  · rw [lit_not_neg]; simp [pos_lit, neg_lit]

theorem lit_not_lit_not (l : Nat) : lit_not (lit_not l) = l := by
  simp [lit_not, Nat.xor_assoc]

/-! ## Restart heuristic (`need_restart`, new_sat_solver.c lines 7832-7847)

The two LBD exponential moving averages are `uint64_t` fixed-point numbers with
32 fraction bits (`update_emas`, lines 7432-7447: the slow EMA gains `x << 16`
and decays by `>> 16`; the fast one gains `x << 27` and decays by `>> 5`; in
steady state both represent `lbd · 2^32`).  `need_restart` reads

    if (conflicts >= restart_next && decision_level >= (uint32_t)(fast_ema >> 32)) {
      aux = fast_ema;
      aux -= (aux >> 4) + (aux >> 5);     // approximately 0.9 * fast_ema
      if (aux >= slow_ema) return true;
    }
    return false;

All five inputs are modelled as `Nat` (they are unsigned in C; the subtraction
cannot wrap since `(aux>>4)+(aux>>5) ≤ aux`); the cast to `uint32_t` is `% 2^32`. -/

def need_restart (conflicts restart_next decision_level fast_ema slow_ema : Nat) : Bool :=
  if restart_next ≤ conflicts ∧ (fast_ema >>> 32) % 2 ^ 32 ≤ decision_level then
    decide (slow_ema ≤ fast_ema - ((fast_ema >>> 4) + (fast_ema >>> 5)))
  else
    false

/-- The restart condition exactly as the spec sentence states it: conflicts at
least `restart_next`, decision level at least the integer part of the **slow**
EMA, and `0.90625 · fast ≥ slow` (`0.90625 = 29/32`, so in the fixed-point
representation this is `29·fast ≥ 32·slow`). -/
def restart_spec_claim (conflicts restart_next decision_level fast_ema slow_ema : Nat) : Prop :=
  restart_next ≤ conflicts ∧ slow_ema >>> 32 ≤ decision_level ∧
    32 * slow_ema ≤ 29 * fast_ema

/-- C2, counterexample: with `conflicts = restart_next = 1`, decision level `4`,
fast EMA `5·2^32` (integer part 5) and slow EMA `4·2^32` (integer part 4), the
spec's three conditions all hold (`4 ≥ 4` and `0.90625·5 = 4.53125 ≥ 4`), yet
`need_restart` returns false: the code compares the decision level against the
integer part of the **fast** EMA (`fast_ema >> 32 = 5 > 4`), not the slow one. -/
theorem need_restart_spec_counterexample :
    restart_spec_claim 1 1 4 (5 * 2 ^ 32) (4 * 2 ^ 32) ∧
      need_restart 1 1 4 (5 * 2 ^ 32) (4 * 2 ^ 32) = false := by
  constructor
  · refine ⟨le_refl 1, ?_, by norm_num⟩
    show (4 * 2 ^ 32) / 2 ^ 32 ≤ 4
    norm_num
  · have h : (5 * 2 ^ 32 : Nat) >>> 32 % 2 ^ 32 = 5 := by
      rw [Nat.shiftRight_eq_div_pow]
      norm_num
    simp only [need_restart, h]
    norm_num

/-- C2, amended: `need_restart` returns true exactly when the cumulative
conflict count is at least `restart_next`, the current decision level is at
least the integer part of the **fast** LBD average, and
`fast − ⌊fast/16⌋ − ⌊fast/32⌋ ≥ slow` (the code's integer rendering of
`0.90625·fast ≥ slow`). -/
theorem need_restart_iff (conflicts restart_next decision_level fast_ema slow_ema : Nat)
    (hf : fast_ema < 2 ^ 64) :
    need_restart conflicts restart_next decision_level fast_ema slow_ema = true ↔
      (restart_next ≤ conflicts ∧ fast_ema >>> 32 ≤ decision_level ∧
        slow_ema ≤ fast_ema - fast_ema / 16 - fast_ema / 32) := by
  have hmod : (fast_ema >>> 32) % 2 ^ 32 = fast_ema >>> 32 := by
    apply Nat.mod_eq_of_lt
    rw [Nat.shiftRight_eq_div_pow]
    exact Nat.div_lt_of_lt_mul (by calc fast_ema < 2 ^ 64 := hf
                                     _ = 2 ^ 32 * 2 ^ 32 := by norm_num)
  have h16 : fast_ema >>> 4 = fast_ema / 16 := by rw [Nat.shiftRight_eq_div_pow]
  have h32 : fast_ema >>> 5 = fast_ema / 32 := by rw [Nat.shiftRight_eq_div_pow]
  have hsub : fast_ema - (fast_ema / 16 + fast_ema / 32) =
      fast_ema - fast_ema / 16 - fast_ema / 32 := by omega
  simp only [need_restart, hmod, h16, h32, hsub]
  by_cases h : restart_next ≤ conflicts ∧ fast_ema >>> 32 ≤ decision_level
  · rw [if_pos h, decide_eq_true_eq]
    tauto
  · rw [if_neg h]
    constructor
    · intro hc; exact absurd hc (by simp)
    · intro hc; exact absurd ⟨hc.1, hc.2.1⟩ h

/-- Witness for `need_restart_iff` at a concrete input. -/
theorem need_restart_iff_witness :
    (5 * 2 ^ 32 : Nat) < 2 ^ 64 ∧
      (need_restart 1 1 5 (5 * 2 ^ 32) (4 * 2 ^ 32) = true ↔
        (1 ≤ 1 ∧ (5 * 2 ^ 32 : Nat) >>> 32 ≤ 5 ∧
          (4 * 2 ^ 32 : Nat) ≤ 5 * 2 ^ 32 - 5 * 2 ^ 32 / 16 - 5 * 2 ^ 32 / 32)) :=
  ⟨by norm_num, need_restart_iff 1 1 5 (5 * 2 ^ 32) (4 * 2 ^ 32) (by norm_num)⟩

/-! ## Elimination-heap ordering (`pp_elim_cost`, `var_occs`, `elim_lt`,
new_sat_solver.c lines 4748-4783)

`occ` maps each literal to its occurrence count.  `pp_elim_cost` is the
`uint64_t` product `occ[pos_lit x] * occ[neg_lit x]`; inside `elim_lt` it is
assigned to a `uint32_t` local, hence truncated mod `2^32`.  `var_occs` is the
sum.  "x is cheap" is the code's `cx < ox` test:

    if (cx < ox && cy >= oy) return true;     // x cheap, y not cheap
    if (cy < oy && cx >= ox) return false;    // y cheap, x not cheap
    return cx < cy;
-/

def pp_elim_cost (occ : Nat → Nat) (x : Nat) : Nat :=
  occ (pos_lit x) * occ (neg_lit x)

def var_occs (occ : Nat → Nat) (x : Nat) : Nat :=
  occ (pos_lit x) + occ (neg_lit x)

def elim_lt (occ : Nat → Nat) (x y : Nat) : Bool :=
  let cx := pp_elim_cost occ x % 2 ^ 32
  let ox := var_occs occ x
  let cy := pp_elim_cost occ y % 2 ^ 32
  let oy := var_occs occ y
  if cx < ox ∧ oy ≤ cy then true
  else if cy < oy ∧ ox ≤ cx then false
  else decide (cx < cy)

/-- Occurrence counts used by the C9 counterexample: variable 1 has
`pos_occ = neg_occ = 1` (so `min = 1`); variable 2 has `pos_occ = 0`,
`neg_occ = 3` (so `min = 0 ≠ 1`); variable 3 is a same-tier tie witness. -/
def occC9 : Nat → Nat
  | 2 => 1
  | 3 => 1
  | 5 => 3
  | 6 => 2
  | 7 => 2
  | 8 => 2
  | 9 => 2
  | _ => 0

/-- C9, counterexample.  The claim says a variable with
`min(pos_occ,neg_occ) = 1` ranks strictly before every variable with
`min ≠ 1`, and that equal products within a tier are tie-broken by variable id.
Both parts fail on `elim_lt`:
* variable 1 (`min = 1`) does **not** rank before variable 2 (`min = 0`);
  in fact `elim_lt` ranks 2 strictly before 1, because the code's "cheap" test
  is `pos·neg < pos+neg`, which also holds when one side has zero occurrences;
* variables 3 and 4 both have `pos_occ = neg_occ = 2` (same tier, equal
  products) but `elim_lt` orders them in neither direction: there is no
  variable-id tie-break. -/
theorem elim_lt_claim_counterexample :
    (min (occC9 (pos_lit 1)) (occC9 (neg_lit 1)) = 1 ∧
      min (occC9 (pos_lit 2)) (occC9 (neg_lit 2)) ≠ 1 ∧
      elim_lt occC9 1 2 = false ∧ elim_lt occC9 2 1 = true) ∧
    (pp_elim_cost occC9 3 = pp_elim_cost occC9 4 ∧ (3 : Nat) < 4 ∧
      elim_lt occC9 3 4 = false ∧ elim_lt occC9 4 3 = false) := by
  constructor
  · refine ⟨by decide, by decide, ?_, ?_⟩ <;>
      · simp only [elim_lt, pp_elim_cost, var_occs, occC9, pos_lit, neg_lit]
        decide
  · refine ⟨by decide, by decide, ?_, ?_⟩ <;>
      · simp only [elim_lt, pp_elim_cost, var_occs, occC9, pos_lit, neg_lit]
        decide

/-- "x is cheap": the code's first-tier test `cost < occs`
(with the `uint32_t` truncation of the cost). -/
def elim_cheap (occ : Nat → Nat) (x : Nat) : Prop :=
  pp_elim_cost occ x % 2 ^ 32 < var_occs occ x

instance (occ : Nat → Nat) (x : Nat) : Decidable (elim_cheap occ x) := by
  unfold elim_cheap; infer_instance

/-- Helper for C9: `elim_lt` ranks `x` strictly before `y` exactly when
`x` is cheap and `y` is not, or both sit in the same cheapness tier and `x`'s
(truncated) product is strictly smaller.  Equal products in the same tier are
ordered in neither direction (there is no variable-id tie-break). -/
theorem elim_lt_iff (occ : Nat → Nat) (x y : Nat) :
    elim_lt occ x y = true ↔
      ((elim_cheap occ x ∧ ¬ elim_cheap occ y) ∨
        ((elim_cheap occ x ↔ elim_cheap occ y) ∧
          pp_elim_cost occ x % 2 ^ 32 < pp_elim_cost occ y % 2 ^ 32)) := by
  simp only [elim_lt, elim_cheap]
  by_cases h1 : pp_elim_cost occ x % 2 ^ 32 < var_occs occ x ∧
      var_occs occ y ≤ pp_elim_cost occ y % 2 ^ 32
  · rw [if_pos h1]
    simp only [true_iff]
    exact Or.inl ⟨h1.1, by omega⟩
  · rw [if_neg h1]
    by_cases h2 : pp_elim_cost occ y % 2 ^ 32 < var_occs occ y ∧
        var_occs occ x ≤ pp_elim_cost occ x % 2 ^ 32
    · rw [if_pos h2]
      constructor
      · intro hc; exact absurd hc (by simp)
      · rintro (⟨ha, hb⟩ | ⟨hiff, _⟩) <;> omega
    · rw [if_neg h2, decide_eq_true_eq]
      constructor
      · intro hlt
        right
        exact ⟨by constructor <;> intro <;> omega, hlt⟩
      · rintro (⟨ha, hb⟩ | ⟨_, hlt⟩) <;> omega

/-- Helper for C9: without `uint32_t` overflow, the cheap tier is exactly
the variables with `min(pos_occ, neg_occ) ≤ 1` that occur at all — the spec's
`min = 1` tier plus the variables with a zero occurrence count on one side. -/
theorem elim_cheap_iff (occ : Nat → Nat) (x : Nat)
    (hof : pp_elim_cost occ x < 2 ^ 32) :
    elim_cheap occ x ↔
      (min (occ (pos_lit x)) (occ (neg_lit x)) ≤ 1 ∧ 1 ≤ var_occs occ x) := by
  have h : pp_elim_cost occ x % 2 ^ 32 = pp_elim_cost occ x := Nat.mod_eq_of_lt hof
  unfold elim_cheap
  rw [h]
  unfold pp_elim_cost var_occs
  set p := occ (pos_lit x) with hp
  set n := occ (neg_lit x) with hn
  constructor
  · intro hlt
    constructor
    · by_contra hmin
      push_neg at hmin
      have h1 : 2 ≤ p := le_trans (by omega) (min_le_left p n)
      have h2 : 2 ≤ n := le_trans (by omega) (min_le_right p n)
      nlinarith
    · omega
  · rintro ⟨hmin, hpos⟩
    have hm : p ≤ 1 ∨ n ≤ 1 := by
      rcases le_total p n with hc | hc
      · left
        calc p = min p n := (min_eq_left hc).symm
          _ ≤ 1 := hmin
      · right
        calc n = min p n := (min_eq_right hc).symm
          _ ≤ 1 := hmin
    rcases hm with hm | hm
    · rcases Nat.le_one_iff_eq_zero_or_eq_one.mp hm with h1 | h1 <;> rw [h1] <;> omega
    · rcases Nat.le_one_iff_eq_zero_or_eq_one.mp hm with h1 | h1 <;> rw [h1] <;> omega

/-- C9, amended: when neither elimination cost overflows `uint32_t`, the heap
ordering `elim_lt` ranks `x` strictly before `y` exactly when `x` is *cheap*
(`pos_occ·neg_occ < pos_occ+neg_occ`, i.e. `min(pos_occ,neg_occ) ≤ 1` with at
least one occurrence) and `y` is not; among variables of the same cheapness
tier it orders by `pos_occ·neg_occ` ascending; equal products within a tier are
ordered in neither direction — there is no variable-id tie-break. -/
theorem elim_lt_amended (occ : Nat → Nat) (x y : Nat)
    (hx : pp_elim_cost occ x < 2 ^ 32) (hy : pp_elim_cost occ y < 2 ^ 32) :
    (elim_lt occ x y = true ↔
      ((elim_cheap occ x ∧ ¬ elim_cheap occ y) ∨
        ((elim_cheap occ x ↔ elim_cheap occ y) ∧
          pp_elim_cost occ x < pp_elim_cost occ y))) ∧
    (elim_cheap occ x ↔
      (min (occ (pos_lit x)) (occ (neg_lit x)) ≤ 1 ∧ 1 ≤ var_occs occ x)) := by
  have h1 := elim_lt_iff occ x y
  rw [Nat.mod_eq_of_lt hx, Nat.mod_eq_of_lt hy] at h1
  exact ⟨h1, elim_cheap_iff occ x hx⟩

/-- Witness for `elim_lt_amended` at the concrete occurrence table `occC9`. -/
theorem elim_lt_amended_witness :
    pp_elim_cost occC9 1 < 2 ^ 32 ∧ pp_elim_cost occC9 2 < 2 ^ 32 ∧
      ((elim_lt occC9 1 2 = true ↔
        ((elim_cheap occC9 1 ∧ ¬ elim_cheap occC9 2) ∨
          ((elim_cheap occC9 1 ↔ elim_cheap occC9 2) ∧
            pp_elim_cost occC9 1 < pp_elim_cost occC9 2))) ∧
      (elim_cheap occC9 1 ↔
        (min (occC9 (pos_lit 1)) (occC9 (neg_lit 1)) ≤ 1 ∧ 1 ≤ var_occs occC9 1))) :=
  ⟨by decide, by decide, elim_lt_amended occC9 1 2 (by decide) (by decide)⟩

/-! ## Two-watched-literal propagation, clause entries
(`propagate_from_literal`, new_sat_solver.c lines 6692-6795)

We embed the processing of one non-binary watch entry `(cidx, blocker)` found
in the watch vector of the false literal `l0`.  `v : Nat → Nat` is the
truth-value array.  The code:

    if (lit_is_true(solver, blocker)) continue;          -- entry kept unchanged
    l = lit[0] ^ lit[1] ^ l0;                            -- other watched literal
    if (lit_value(l) == VAL_TRUE) { blocker := l; continue; }
    lit[0] = l; lit[1] = l0;                             -- force watch positions
    for (t = 2; t < len; t++)
      if (!lit_is_false(lit[t])) {                       -- replacement found
        lit[1] = lit[t]; lit[t] = l0;
        add_clause_watch(lit[1], cidx, l);               -- append (cidx, l)
        -- entry removed from l0's watch vector (j -= 2)
        goto done;
      }
    if (lit_value(l) == VAL_FALSE) record_clause_conflict(cidx);
    else clause_propagation(l, cidx);                    -- antecedent clause(cidx)

The outcome of the entry is represented symbolically: `keep` (entry written
back unchanged), `blockerUpdate l` (entry kept, blocker replaced by `l`),
`newWatch cl l1 pair` (the clause now reads `cl`, the watch moved to `l1`, and
`pair = (cidx, l)` was appended to `l1`'s watch vector while the entry was
dropped from `l0`'s), `conflict cidx`, and `propagate l cidx` (enqueue `l`
with antecedent *clause*(cidx)). -/

inductive PropOutcome where
  | keep : PropOutcome
  | blockerUpdate : Nat → PropOutcome
  | newWatch : List Nat → Nat → Nat × Nat → PropOutcome
  | conflict : Nat → PropOutcome
  | propagate : Nat → Nat → PropOutcome
deriving DecidableEq

/-- The scan `for (t = 2; t < len; t++)` over the clause tail: find the first
literal that is not false; replace it in place by `l0` and return it.  Returns
`none` when every tail literal is false. -/
def watch_search (v : Nat → Nat) (l0 : Nat) : List Nat → Option (Nat × List Nat)
  | [] => none
  | x :: rest =>
    if v x ≠ VAL_FALSE then some (x, l0 :: rest)
    else
      match watch_search v l0 rest with
      | some (y, r) => some (y, x :: r)
      | none => none

/-- Processing of one clause entry `(cidx, blocker)` of `l0`'s watch vector,
where the clause currently reads `cl` (its first two slots are the watched
literals, one of them `l0`). -/
def propagate_clause_entry (v : Nat → Nat) (l0 blocker cidx : Nat) (cl : List Nat) :
    PropOutcome :=
  if v blocker = VAL_TRUE then .keep
  else
    match cl with
    | a0 :: a1 :: rest =>
      let l := a0 ^^^ a1 ^^^ l0
      if v l = VAL_TRUE then .blockerUpdate l
      else
        match watch_search v l0 rest with
        | some (l1, rest') => .newWatch (l :: l1 :: rest') l1 (cidx, l)
        | none => if v l = VAL_FALSE then .conflict cidx else .propagate l cidx
    | _ => .keep

theorem watch_search_found (v : Nat → Nat) (l0 x : Nat) (t1 t2 : List Nat)
    (h1 : ∀ y ∈ t1, v y = VAL_FALSE) (h2 : v x ≠ VAL_FALSE) :
    watch_search v l0 (t1 ++ x :: t2) = some (x, t1 ++ l0 :: t2) := by
  induction t1 with
  | nil => simp [watch_search, h2]
  | cons a t ih =>
    have ha : v a = VAL_FALSE := h1 a (by simp)
    have ht := ih (fun y hy => h1 y (by simp [hy]))
    simp only [List.cons_append, watch_search]
    rw [if_neg (by simp [ha])]
    simp only [List.append_eq] at ht ⊢
    rw [ht]

theorem watch_search_none (v : Nat → Nat) (l0 : Nat) (t : List Nat)
    (h : ∀ y ∈ t, v y = VAL_FALSE) :
    watch_search v l0 t = none := by
  induction t with
  | nil => rfl
  | cons a t ih =>
    have ha : v a = VAL_FALSE := h a (by simp)
    simp only [watch_search]
    rw [if_neg (by simp [ha]), ih (fun y hy => h y (by simp [hy]))]

/-- C3: for a false literal `l0` and a non-binary watch entry `(cidx, blocker)`
whose blocker is not true and whose other watched literal `l` is not true
either, the entry processing
* scans positions `2..` for a non-false literal; at the first such literal `x`
  (all tail literals before it false) it swaps `x` into watch position 1,
  puts `l0` at `x`'s old position, appends the pair `(cidx, l)` — `l` being the
  position-0 literal — to `x`'s watch list, and drops the entry from `l0`'s
  list (outcome `newWatch (l :: x :: …) x (cidx, l)`);
* if every tail literal is false and `l` is false, raises a clause conflict;
* if every tail literal is false and `l` is undefined, enqueues `l` with
  antecedent *clause*(cidx). -/
theorem propagate_clause_entry_spec (v : Nat → Nat) (l0 blocker cidx a0 a1 l : Nat)
    (rest : List Nat)
    (hb : v blocker ≠ VAL_TRUE)
    (hw : (a0 = l0 ∧ a1 = l) ∨ (a1 = l0 ∧ a0 = l))
    (hl : v l ≠ VAL_TRUE) :
    (∀ x t1 t2, rest = t1 ++ x :: t2 → (∀ y ∈ t1, v y = VAL_FALSE) → v x ≠ VAL_FALSE →
      propagate_clause_entry v l0 blocker cidx (a0 :: a1 :: rest) =
        .newWatch (l :: x :: (t1 ++ l0 :: t2)) x (cidx, l)) ∧
    ((∀ y ∈ rest, v y = VAL_FALSE) → v l = VAL_FALSE →
      propagate_clause_entry v l0 blocker cidx (a0 :: a1 :: rest) = .conflict cidx) ∧
    ((∀ y ∈ rest, v y = VAL_FALSE) → v l ≠ VAL_FALSE →
      propagate_clause_entry v l0 blocker cidx (a0 :: a1 :: rest) = .propagate l cidx) := by
  have hxor : a0 ^^^ a1 ^^^ l0 = l := by
    rcases hw with ⟨h0, h1⟩ | ⟨h1, h0⟩
    · rw [h0, h1, Nat.xor_comm l0 l, Nat.xor_assoc, Nat.xor_self, Nat.xor_zero]
    · rw [h1, h0, Nat.xor_assoc, Nat.xor_self, Nat.xor_zero]
  refine ⟨?_, ?_, ?_⟩
  · intro x t1 t2 hrest h1 h2
    simp only [propagate_clause_entry, if_neg hb, hxor, if_neg hl, hrest]
    rw [watch_search_found v l0 x t1 t2 h1 h2]
  · intro hall hlf
    simp only [propagate_clause_entry, if_neg hb, hxor, if_neg hl]
    rw [watch_search_none v l0 rest hall, if_pos hlf]
  · intro hall hlf
    simp only [propagate_clause_entry, if_neg hb, hxor, if_neg hl]
    rw [watch_search_none v l0 rest hall, if_neg hlf]

/-- Value table for the C3 witness: literal 4 false, literal 6 false,
literal 9 undefined, literal 11 false, literal 13 undefined. -/
def valC3 : Nat → Nat
  | 4 => 2
  | 6 => 2
  | 9 => 1
  | 11 => 2
  | 13 => 1
  | _ => 0

/-- Witness for `propagate_clause_entry_spec`: clause `[4, 6, 11, 13]` watched
by `l0 = 4` with blocker `11` (false), other watched literal `6` (false); the
scan skips the false literal `11` and moves the watch to `13`. -/
theorem propagate_clause_entry_spec_witness :
    valC3 11 ≠ VAL_TRUE ∧ valC3 6 ≠ VAL_TRUE ∧
      propagate_clause_entry valC3 4 11 100 (4 :: 6 :: [11, 13]) =
        .newWatch (6 :: 13 :: ([11] ++ 4 :: [])) 13 (100, 6) :=
  ⟨by decide, by decide,
    (propagate_clause_entry_spec valC3 4 11 100 4 6 6 [11, 13] (by decide)
        (Or.inl ⟨rfl, rfl⟩) (by decide)).1
      13 [11] [] rfl (by decide) (by decide)⟩

/-! ## Model extension for one saved-clause block
(`saved_clause_is_false`, `extend_assignment_for_block`, new_sat_solver.c
lines 7567-7613; caller `extend_assignment`, lines 7640-7660)

A block `a[0 … n-1]` of the saved-clause vector is a concatenation of saved
clauses, each stored with the distinguished literal `l` last, and `a[n-1] = l`.
The code scans clause by clause (`while (a[j] != l) j++` finds the delimiter),
tests `saved_clause_is_false` (no literal of the clause front is `VAL_TRUE`)
and, at the first false clause, sets `val = VAL_TRUE` and breaks; `val`
defaults to `VAL_FALSE`.  Finally

    solver->value[l] = val;  solver->value[not(l)] = opposite_val(val);

`block_scan` is the same scan in one pass: `acc` says "every literal of the
current clause seen so far is non-true"; at each delimiter `l` a true `acc`
ends the scan. -/

def block_scan (v : Nat → Nat) (l : Nat) : Bool → List Nat → Bool
  | _, [] => false
  | acc, x :: rest =>
    if x = l then (if acc then true else block_scan v l true rest)
    else block_scan v l (acc && !(v x == VAL_TRUE)) rest

/-- `extend_assignment_for_block`: `l` is the last element of the block;
the computed value is written to `l` and its opposite to `¬l`. -/
def extend_assignment_for_block (v : Nat → Nat) (block : List Nat) : Nat → Nat :=
  let l := (block.getLast?).getD 0
  let val := if block_scan v l true block then VAL_TRUE else VAL_FALSE
  Function.update (Function.update v l val) (lit_not l) (opposite_val val)

theorem block_scan_clause (v : Nat → Nat) (l : Nat) (c t : List Nat) (hc : l ∉ c) :
    ∀ acc, block_scan v l acc (c ++ l :: t) =
      (if acc ∧ (∀ a ∈ c, ¬ v a = VAL_TRUE) then true else block_scan v l true t) := by
  induction c with
  | nil =>
    intro acc
    simp only [List.nil_append, block_scan, if_pos rfl]
    cases acc <;> simp
  | cons a c ih =>
    intro acc
    have ha : a ≠ l := by intro h; exact hc (by simp [h])
    simp only [List.cons_append, block_scan, if_neg ha]
    simp only [List.append_eq]
    rw [ih (fun h => hc (by simp [h]))]
    by_cases hv : v a = VAL_TRUE <;> cases acc <;> simp [hv]

theorem block_scan_blocks (v : Nat → Nat) (l : Nat) (cs : List (List Nat))
    (hc : ∀ c ∈ cs, l ∉ c) :
    block_scan v l true ((cs.map (fun c => c ++ [l])).flatten) =
      cs.any (fun c => c.all (fun a => !(v a == VAL_TRUE))) := by
  induction cs with
  | nil => rfl
  | cons c cs ih =>
    simp only [List.map_cons, List.flatten_cons, List.append_assoc, List.singleton_append]
    rw [block_scan_clause v l c _ (hc c (by simp))]
    rw [ih (fun d hd => hc d (by simp [hd]))]
    simp only [List.any_cons, true_and]
    by_cases h : ∀ a ∈ c, ¬ v a = VAL_TRUE
    · rw [if_pos h]
      have : c.all (fun a => !(v a == VAL_TRUE)) = true := by
        simp only [List.all_eq_true, Bool.not_eq_true', beq_eq_false_iff_ne]
        exact h
      rw [this]
      simp
    · rw [if_neg h]
      have : c.all (fun a => !(v a == VAL_TRUE)) = false := by
        push_neg at h
        obtain ⟨a, ha, hv⟩ := h
        simp only [List.all_eq_false]
        exact ⟨a, ha, by simp [hv]⟩
      rw [this]
      simp

theorem getLast_blocks (l : Nat) (cs : List (List Nat)) (hne : cs ≠ []) :
    (((cs.map (fun c => c ++ [l])).flatten).getLast?).getD 0 = l := by
  induction cs with
  | nil => exact absurd rfl hne
  | cons c cs ih =>
    cases hcs : cs with
    | nil =>
      simp only [hcs, List.map_cons, List.map_nil, List.flatten_cons, List.flatten_nil,
        List.append_nil]
      rw [List.getLast?_concat]
      rfl
    | cons d ds =>
      have h1 := ih (by simp [hcs])
      rw [hcs] at h1
      simp only [List.map_cons, List.flatten_cons] at h1 ⊢
      have h2 : d ++ [l] ++ (List.map (fun c => c ++ [l]) ds).flatten ≠ [] := by
        intro hcon
        have := congrArg List.length hcon
        simp at this
      rw [List.getLast?_append_of_ne_nil _ h2]
      exact h1

/-- C8: for a block made of saved clauses `c ++ [l]` (distinguished literal `l`
stored last, `l` not among the other literals) whose other literals are all
assigned, the block processing assigns `l` the value true exactly when some
saved clause of the block has all of its other literals false, and false
otherwise; the opposite value is written to `¬l`; no other literal's stored
value changes. -/
theorem extend_assignment_for_block_spec (v : Nat → Nat) (l : Nat) (cs : List (List Nat))
    (hne : cs ≠ [])
    (hl : ∀ c ∈ cs, l ∉ c)
    (hassigned : ∀ c ∈ cs, ∀ a ∈ c, v a = VAL_TRUE ∨ v a = VAL_FALSE) :
    let block := (cs.map (fun c => c ++ [l])).flatten
    let v' := extend_assignment_for_block v block
    (v' l = VAL_TRUE ↔ ∃ c ∈ cs, ∀ a ∈ c, v a = VAL_FALSE) ∧
      (v' l = VAL_TRUE ∨ v' l = VAL_FALSE) ∧
      v' (lit_not l) = opposite_val (v' l) ∧
      (∀ m, m ≠ l → m ≠ lit_not l → v' m = v m) := by
  intro block v'
  have hlast : (block.getLast?).getD 0 = l := getLast_blocks l cs hne
  have hscan : block_scan v l true block =
      cs.any (fun c => c.all (fun a => !(v a == VAL_TRUE))) :=
    block_scan_blocks v l cs hl
  have hne' : lit_not l ≠ l := lit_not_ne l
  have hvl : v' l = (if block_scan v l true block then VAL_TRUE else VAL_FALSE) := by
    show (Function.update (Function.update v _ _) _ _) l = _
    rw [hlast, Function.update_noteq (Ne.symm (Ne.symm hne')).symm, Function.update_same]
  have hvnl : v' (lit_not l) =
      opposite_val (if block_scan v l true block then VAL_TRUE else VAL_FALSE) := by
    show (Function.update (Function.update v _ _) _ _) (lit_not l) = _
    rw [hlast, Function.update_same]
  refine ⟨?_, ?_, ?_, ?_⟩
  · rw [hvl, hscan]
    constructor
    · intro htrue
      by_cases h : cs.any (fun c => c.all (fun a => !(v a == VAL_TRUE))) = true
      · simp only [List.any_eq_true, List.all_eq_true, Bool.not_eq_true',
          beq_eq_false_iff_ne, ne_eq] at h
        obtain ⟨c, hcin, hcall⟩ := h
        refine ⟨c, hcin, fun a ha => ?_⟩
        rcases hassigned c hcin a ha with h1 | h1
        · exact absurd h1 (hcall a ha)
        · exact h1
      · rw [Bool.not_eq_true] at h
        rw [h] at htrue
        simp [VAL_TRUE, VAL_FALSE] at htrue
    · rintro ⟨c, hcin, hcall⟩
      have hc : c.all (fun a => !(v a == VAL_TRUE)) = true := by
        simp only [List.all_eq_true, Bool.not_eq_true', beq_eq_false_iff_ne, ne_eq]
        intro a ha
        rw [hcall a ha]
        simp [VAL_FALSE, VAL_TRUE]
      rw [List.any_eq_true.mpr ⟨c, hcin, hc⟩]
      simp
  · rw [hvl]
    by_cases h : block_scan v l true block <;> simp [h, VAL_TRUE, VAL_FALSE]
  · rw [hvl, hvnl]
  · intro m hm1 hm2
    show (Function.update (Function.update v _ _) _ _) m = v m
    rw [hlast, Function.update_noteq hm2, Function.update_noteq hm1]

/-- Value table for the C8 witness: literals 5, 7 false, literal 9 true. -/
def valC8 : Nat → Nat
  | 5 => 2
  | 7 => 2
  | 9 => 3
  | _ => 0

/-- Witness for `extend_assignment_for_block_spec`: block for literal `l = 12`
with saved clauses `{5, 9, 12}` (9 is true) and `{7, 12}` (7 is false): the
second clause forces `l` to true. -/
theorem extend_assignment_for_block_spec_witness :
    ([[5, 9], [7]] : List (List Nat)) ≠ [] ∧
      (extend_assignment_for_block valC8
          (([[5, 9], [7]].map (fun c => c ++ [12])).flatten) 12 = VAL_TRUE ↔
        ∃ c ∈ [[5, 9], [7]], ∀ a ∈ c, valC8 a = VAL_FALSE) :=
  ⟨by decide,
    (extend_assignment_for_block_spec valC8 12 [[5, 9], [7]] (by decide)
      (by decide) (by decide)).1⟩

/-! ## Antecedent tags

`new_sat_solver.h` (the header, not part of this tree) declares the tag values;
their names, order, and the fact that "eliminated" means `tag >= ATAG_PURE` are
used throughout `new_sat_solver.c` (`var_is_eliminated`, line 3122) and
documented in the spec's data model. -/

inductive ATag where
  | none : ATag
  | decision : ATag
  | unit : ATag
  | binary : ATag
  | clause : ATag
  | stacked : ATag
  | pure : ATag
  | elim : ATag
  | subst : ATag
deriving DecidableEq

/-- Numeric code of a tag, mirroring the C enum ordering. -/
def ATag.code : ATag → Nat
  | .none => 0
  | .decision => 1
  | .unit => 2
  | .binary => 3
  | .clause => 4
  | .stacked => 5
  | .pure => 6
  | .elim => 7
  | .subst => 8

/-! ## Learned-clause reduction
(`clause_is_locked` lines 3647-3654, `clause_is_precious` lines 3661-3667,
`collect_learned_clauses` lines 3669-3698, `less_active` / sorting lines
3700-3720, `nsat_reduce_learned_clause_set` lines 3724-3764)

The environment collects the solver state these functions read: the sequence
of learned-clause indices (in pool order, as scanned from
`clause_pool_first_learned_clause`), per-clause literal arrays and activities,
per-variable decision level, antecedent tag/data, and assignment flags, plus
the `keep_lbd` and `reduce_fraction` parameters.  Clause activities are C
`float`s of which the code only uses `<` and `==`; they are modelled as `ℚ`
(any linearly ordered carrier; solver activities are never NaN). -/

structure ReduceEnv where
  learned : List Nat
  lits : Nat → List Nat
  act : Nat → ℚ
  level : Nat → Nat
  ante_tag : Nat → ATag
  ante_data : Nat → Nat
  assigned : Nat → Bool
  keep_lbd : Nat
  reduce_fraction : Nat

/-- `clause_is_locked`: the clause is the antecedent of its own first literal's
(assigned) variable. -/
def clause_is_locked (e : ReduceEnv) (c : Nat) : Bool :=
  let x0 := var_of ((e.lits c).headD 0)
  e.ante_tag x0 == ATag.clause && e.ante_data x0 == c && e.assigned x0

/-- `clause_lbd_le`: the number of distinct decision levels among the clause's
literals is at most `k` (the C code counts distinct keys in a tag map, with an
early exit that does not change the result). -/
def clause_lbd_le (lvl : Nat → Nat) (lits : List Nat) (k : Nat) : Bool :=
  ((lits.map (fun l => lvl (var_of l))).dedup).length ≤ k

/-- `clause_is_precious`: length at most `keep_lbd`, or LBD at most `keep_lbd`. -/
def clause_is_precious (e : ReduceEnv) (c : Nat) : Bool :=
  (e.lits c).length ≤ e.keep_lbd || clause_lbd_le e.level (e.lits c) e.keep_lbd

/-- `collect_learned_clauses`: all learned clauses that are neither locked nor
precious, in pool order. -/
def collect_learned_clauses (e : ReduceEnv) : List Nat :=
  e.learned.filter (fun c => !clause_is_locked e c && !clause_is_precious e c)

/-- `less_active`: activity ascending, clause index ascending on ties
(`act1 < act2 || (act1 == act2 && c1 < c2)`). -/
def less_active (act : Nat → ℚ) (c1 c2 : Nat) : Prop :=
  act c1 < act c2 ∨ (act c1 = act c2 ∧ c1 < c2)

instance (act : Nat → ℚ) (c1 c2 : Nat) : Decidable (less_active act c1 c2) := by
  unfold less_active; infer_instance

/-- The non-strict companion of `less_active`, used as the sorting relation. -/
def la_le (act : Nat → ℚ) (c1 c2 : Nat) : Prop := ¬ less_active act c2 c1

instance (act : Nat → ℚ) (c1 c2 : Nat) : Decidable (la_le act c1 c2) := by
  unfold la_le; infer_instance

theorem la_le_iff (act : Nat → ℚ) (a b : Nat) :
    la_le act a b ↔ (act a < act b ∨ (act a = act b ∧ a ≤ b)) := by
  unfold la_le less_active
  push_neg
  constructor
  · rintro ⟨h1, h2⟩
    rcases lt_or_eq_of_le h1 with h | h
    · exact Or.inl h
    · exact Or.inr ⟨h, h2 h.symm⟩
  · rintro (h | ⟨h1, h2⟩)
    · exact ⟨h.le, fun he => absurd he (ne_of_gt h)⟩
    · exact ⟨h1.le, fun _ => h2⟩

instance (act : Nat → ℚ) : IsTotal Nat (la_le act) := by
  constructor
  intro a b
  rw [la_le_iff, la_le_iff]
  rcases lt_trichotomy (act a) (act b) with h | h | h
  · exact Or.inl (Or.inl h)
  · rcases Nat.le_total a b with hn | hn
    · exact Or.inl (Or.inr ⟨h, hn⟩)
    · exact Or.inr (Or.inr ⟨h.symm, hn⟩)
  · exact Or.inr (Or.inl h)

instance (act : Nat → ℚ) : IsTrans Nat (la_le act) := by
  constructor
  intro a b c
  rw [la_le_iff, la_le_iff, la_le_iff]
  rintro (h1 | ⟨h1, h1'⟩) (h2 | ⟨h2, h2'⟩)
  · exact Or.inl (lt_trans h1 h2)
  · exact Or.inl (h2 ▸ h1)
  · exact Or.inl (h1 ▸ h2)
  · exact Or.inr ⟨h1.trans h2, le_trans h1' h2'⟩

/-- `sort_learned_clauses` via `uint_array_sort2` with ordering `less_active`. -/
def sort_learned_clauses (act : Nat → ℚ) (a : List Nat) : List Nat :=
  a.insertionSort (la_le act)

/-- The clause indices deleted by `nsat_reduce_learned_clause_set`: the first
`reduce_fraction * (n/32)` entries of the sorted candidate array. -/
def reduce_deleted (e : ReduceEnv) : List Nat :=
  let a := sort_learned_clauses e.act (collect_learned_clauses e)
  a.take (e.reduce_fraction * (a.length / 32))

/-- C6: `nsat_reduce_learned_clause_set` collects exactly the learned clauses
that are neither locked nor precious; the collected array is sorted into a
permutation that is strictly increasing for `less_active` (activity ascending,
index ascending on ties); and exactly the first `reduce_fraction·(n/32)`
clauses of that order are deleted, every deleted clause preceding every kept
candidate in the order.  (`reduce_fraction ≤ 32` is the documented range of
`nsat_set_reduce_fraction`; pool clause indices are pairwise distinct.) -/
theorem reduce_learned_clause_set_spec (e : ReduceEnv)
    (hnd : e.learned.Nodup) (hfrac : e.reduce_fraction ≤ 32) :
    (∀ c, c ∈ collect_learned_clauses e ↔
      (c ∈ e.learned ∧ clause_is_locked e c = false ∧ clause_is_precious e c = false)) ∧
    (sort_learned_clauses e.act (collect_learned_clauses e)).Perm
      (collect_learned_clauses e) ∧
    List.Pairwise (less_active e.act)
      (sort_learned_clauses e.act (collect_learned_clauses e)) ∧
    (reduce_deleted e).length =
      e.reduce_fraction * ((collect_learned_clauses e).length / 32) ∧
    (∃ kept, sort_learned_clauses e.act (collect_learned_clauses e) =
        reduce_deleted e ++ kept ∧
      ∀ d ∈ reduce_deleted e, ∀ k ∈ kept, ¬ less_active e.act k d) := by
  have hperm : (sort_learned_clauses e.act (collect_learned_clauses e)).Perm
      (collect_learned_clauses e) := List.perm_insertionSort _ _
  have hsorted : List.Sorted (la_le e.act)
      (sort_learned_clauses e.act (collect_learned_clauses e)) :=
    List.sorted_insertionSort _ _
  have hnd' : (collect_learned_clauses e).Nodup := List.Nodup.filter _ hnd
  have hnda : (sort_learned_clauses e.act (collect_learned_clauses e)).Nodup :=
    hperm.nodup_iff.mpr hnd'
  have hpw : List.Pairwise (less_active e.act)
      (sort_learned_clauses e.act (collect_learned_clauses e)) := by
    have h1 : List.Pairwise (fun x y => la_le e.act x y ∧ x ≠ y)
        (sort_learned_clauses e.act (collect_learned_clauses e)) :=
      List.Pairwise.and hsorted hnda
    refine h1.imp ?_
    rintro x y ⟨hle, hne⟩
    rw [la_le_iff] at hle
    rcases hle with h | ⟨h1, h2⟩
    · exact Or.inl h
    · exact Or.inr ⟨h1, by omega⟩
  have hlen : (sort_learned_clauses e.act (collect_learned_clauses e)).length =
      (collect_learned_clauses e).length := hperm.length_eq
  have hn0 : e.reduce_fraction * ((collect_learned_clauses e).length / 32) ≤
      (collect_learned_clauses e).length := by
    have h1 : e.reduce_fraction * ((collect_learned_clauses e).length / 32) ≤
        32 * ((collect_learned_clauses e).length / 32) := Nat.mul_le_mul_right _ hfrac
    have h2 : (collect_learned_clauses e).length / 32 * 32 ≤
        (collect_learned_clauses e).length := Nat.div_mul_le_self _ _
    omega
  have hdel : reduce_deleted e = (sort_learned_clauses e.act (collect_learned_clauses e)).take
      (e.reduce_fraction * ((collect_learned_clauses e).length / 32)) := by
    simp only [reduce_deleted]
    rw [hlen]
  refine ⟨?_, hperm, hpw, ?_, ?_⟩
  · intro c
    simp only [collect_learned_clauses, List.mem_filter, Bool.and_eq_true,
      Bool.not_eq_true']
  · rw [hdel, List.length_take, hlen]
    exact Nat.min_eq_left hn0
  · refine ⟨(sort_learned_clauses e.act (collect_learned_clauses e)).drop
      (e.reduce_fraction * ((collect_learned_clauses e).length / 32)), ?_, ?_⟩
    · rw [hdel, List.take_append_drop]
    · intro d hd k hk
      rw [hdel] at hd
      have hsplit := (List.take_append_drop
        (e.reduce_fraction * ((collect_learned_clauses e).length / 32))
        (sort_learned_clauses e.act (collect_learned_clauses e))).symm
      have hpw2 := hpw
      rw [hsplit, List.pairwise_append] at hpw2
      have hla : la_le e.act d k := by
        have := hpw2.2.2 d hd k hk
        rcases this with h | ⟨h1, h2⟩
        · rw [la_le_iff]; exact Or.inl h
        · rw [la_le_iff]; exact Or.inr ⟨h1, by omega⟩
      exact hla

/-- Concrete reduction environment for the C6 witness. -/
def eC6 : ReduceEnv where
  learned := [100, 104, 112]
  lits := fun c =>
    if c = 100 then [10, 12, 14] else if c = 104 then [16, 18, 20]
    else if c = 112 then [22, 24] else []
  act := fun c => if c = 100 then 5 / 2 else 3 / 2
  level := fun x => x
  ante_tag := fun _ => .none
  ante_data := fun _ => 0
  assigned := fun _ => false
  keep_lbd := 2
  reduce_fraction := 32

/-- Witness for `reduce_learned_clause_set_spec` at `eC6`. -/
theorem reduce_learned_clause_set_spec_witness :
    eC6.learned.Nodup ∧ eC6.reduce_fraction ≤ 32 ∧
      (reduce_deleted eC6).length =
        eC6.reduce_fraction * ((collect_learned_clauses eC6).length / 32) :=
  ⟨by decide, by decide,
    (reduce_learned_clause_set_spec eC6 (by decide) (by decide)).2.2.2.1⟩

/-! ## Solver state and clause addition
(`assign_literal` lines 2811-2837, `implied_literal` lines 2893-2912,
`add_empty_clause` / `add_unit_clause` / `add_binary_clause` /
`add_large_clause` lines 2985-3038,
`nsat_solver_simplify_and_add_clause` lines 3041-3112)

The record holds exactly the solver fields these operations touch.  The
solver status type: `solver_status_t` is declared in `new_sat_solver.h`,
which is not part of this tree.  Modelled from the spec: §6 gives
`solve() → {sat, unsat, unknown}` and §5/§7 speak of an *interrupted* status,
so the model carries a constructor for each of the four. -/

inductive Status where
  | unknown : Status
  | sat : Status
  | unsat : Status
  | interrupted : Status
deriving DecidableEq

structure Solver where
  value : Nat → Nat
  stack : List Nat
  ante_tag : Nat → ATag
  ante_data : Nat → Nat
  level : Nat → Nat
  decision_level : Nat
  units : Nat
  binaries : Nat
  watch : Nat → List Nat
  pool : List (List Nat)
  sig : Nat → Nat
  occ : Nat → Nat
  preprocess : Bool
  has_empty_clause : Bool
  status : Status

/-- Watch-vector encoding of a literal entry (`lit2idx`: low bit 1). -/
def lit2idx (l : Nat) : Nat := 2 * l + 1

def add_literal_watch (s : Solver) (l l1 : Nat) : Solver :=
  { s with watch := Function.update s.watch l (s.watch l ++ [lit2idx l1]) }

/-- `add_clause_watch`: push the clause index then the blocker. -/
def add_clause_watch (s : Solver) (l cidx blocker : Nat) : Solver :=
  { s with watch := Function.update s.watch l (s.watch l ++ [cidx, blocker]) }

/-- `assign_literal`: level-0 assignment; pushes `l`, sets `value[l] = VAL_TRUE`
and `value[not(l)] = VAL_FALSE`, tags the variable `ATAG_UNIT` at level 0. -/
def assign_literal (s : Solver) (l : Nat) : Solver :=
  { s with
    stack := s.stack ++ [l]
    value := Function.update (Function.update s.value l VAL_TRUE) (lit_not l) VAL_FALSE
    ante_tag := Function.update s.ante_tag (var_of (lit_not l)) ATag.unit
    ante_data := Function.update s.ante_data (var_of (lit_not l)) 0
    level := Function.update s.level (var_of (lit_not l)) 0 }

/-- `implied_literal`: propagation assignment with antecedent `tag`/`data` at
the current decision level. -/
def implied_literal (s : Solver) (l : Nat) (tag : ATag) (data : Nat) : Solver :=
  { s with
    stack := s.stack ++ [l]
    value := Function.update (Function.update s.value l VAL_TRUE) (lit_not l) VAL_FALSE
    ante_tag := Function.update s.ante_tag (var_of (lit_not l)) tag
    ante_data := Function.update s.ante_data (var_of (lit_not l)) data
    level := Function.update s.level (var_of (lit_not l)) s.decision_level }

def add_empty_clause (s : Solver) : Solver :=
  { s with has_empty_clause := true, status := .unsat }

def add_unit_clause (s : Solver) (l : Nat) : Solver :=
  let s' := assign_literal s l
  { s' with units := s'.units + 1 }

def add_binary_clause (s : Solver) (l0 l1 : Nat) : Solver :=
  add_literal_watch (add_literal_watch { s with binaries := s.binaries + 1 } l0 l1) l1 l0

/-- `var_signature(x) = 1 << (x & 31)`. -/
def var_signature (x : Nat) : Nat := 1 <<< (x % 32)

/-- `set_clause_signature`: or of the variable signatures of the literals. -/
def clause_signature_of (lits : List Nat) : Nat :=
  lits.foldl (fun w l => w ||| var_signature (var_of l)) 0

/-- Append a problem clause to the pool; clause indices are 4-byte-aligned
nonzero offsets, modelled as `4·(position)+4`. -/
def clause_pool_add_problem_clause (s : Solver) (lits : List Nat) : Solver × Nat :=
  ({ s with pool := s.pool ++ [lits] }, 4 * s.pool.length + 4)

def add_clause_all_watch (s : Solver) (lits : List Nat) (cidx : Nat) : Solver :=
  lits.foldl (fun s l =>
    { s with watch := Function.update s.watch l (s.watch l ++ [cidx]) }) s

def add_large_clause (s : Solver) (lits : List Nat) : Solver :=
  let p := clause_pool_add_problem_clause s lits
  if p.1.preprocess then
    let s2 := add_clause_all_watch p.1 lits p.2
    { s2 with sig := Function.update s2.sig p.2 (clause_signature_of lits) }
  else
    add_clause_watch (add_clause_watch p.1 (lits.headD 0) p.2 (lits.getD 1 0))
      (lits.getD 1 0) p.2 (lits.headD 0)

/-- Modelled from the spec: `utils/int_array_sort.c` is not part of this tree;
it sorts the literal array in increasing order (the code relies on "sorting
ensure that not(l) is just after l"). -/
def int_array_sort (l : List Nat) : List Nat := l.insertionSort (· ≤ ·)

/-- The duplicate-removal scan of `nsat_solver_simplify_and_add_clause`:
`l` is the last kept literal; returns `none` when a complementary pair
`l, not(l)` is found (true clause). -/
def dedupTaut (l : Nat) : List Nat → Option (List Nat)
  | [] => some []
  | a :: rest =>
    if a = l then dedupTaut l rest
    else if a = lit_not l then none
    else (dedupTaut a rest).map (a :: ·)

/-- The false-literal-removal scan: drops `VAL_FALSE` literals, keeps undefined
ones, returns `none` on a true literal (true clause). -/
def remove_false_lits (s : Solver) : List Nat → Option (List Nat)
  | [] => some []
  | l :: rest =>
    if s.value l = VAL_FALSE then remove_false_lits s rest
    else if s.value l = VAL_UNDEF_FALSE ∨ s.value l = VAL_UNDEF_TRUE then
      (remove_false_lits s rest).map (l :: ·)
    else none

def increase_occurrence_counts (s : Solver) (lits : List Nat) : Solver :=
  lits.foldl (fun s l => { s with occ := Function.update s.occ l (s.occ l + 1) }) s

def nsat_solver_simplify_and_add_clause (s : Solver) (lits : List Nat) : Solver :=
  match lits with
  | [] => add_empty_clause s
  | _ :: _ =>
    match int_array_sort lits with
    | [] => s
    | l :: rest =>
      match dedupTaut l rest with
      | none => s
      | some ds =>
        match remove_false_lits s (l :: ds) with
        | none => s
        | some ks =>
          let s' :=
            match ks with
            | [] => add_empty_clause s
            | [u] => add_unit_clause s u
            | u :: w :: tail =>
              if tail.isEmpty ∧ ¬ s.preprocess then add_binary_clause s u w
              else add_large_clause s (u :: w :: tail)
          if s'.preprocess then increase_occurrence_counts s' ks else s'

theorem dedupTaut_none (rest : List Nat) :
    ∀ (hd x : Nat), List.Sorted (· ≤ ·) (hd :: rest) →
      2 * x ∈ hd :: rest → 2 * x + 1 ∈ hd :: rest → dedupTaut hd rest = none := by
  induction rest with
  | nil =>
    intro hd x _ hx hx1
    rw [List.mem_singleton] at hx hx1
    omega
  | cons a rest ih =>
    intro hd x hs hx hx1
    rw [List.mem_cons] at hx hx1
    have hsa : List.Sorted (· ≤ ·) (a :: rest) := hs.of_cons
    have hha : hd ≤ a := List.rel_of_sorted_cons hs a (List.mem_cons_self a rest)
    by_cases hah : a = hd
    · simp only [dedupTaut, if_pos hah]
      apply ih hd x
      · rw [← hah]; exact hsa
      · rw [List.mem_cons]
        rcases hx with h | h
        · exact Or.inl h
        · rw [List.mem_cons] at h
          rcases h with h | h
          · exact Or.inl (h.trans hah)
          · exact Or.inr h
      · rw [List.mem_cons]
        rcases hx1 with h | h
        · exact Or.inl h
        · rw [List.mem_cons] at h
          rcases h with h | h
          · exact Or.inl (h.trans hah)
          · exact Or.inr h
    · simp only [dedupTaut, if_neg hah]
      by_cases hnot : a = lit_not hd
      · rw [if_pos hnot]
      · rw [if_neg hnot]
        have hgoal : dedupTaut a rest = none := by
          by_cases hhd : hd = 2 * x
          · -- hd is the positive literal; a must be 2x+1 = not(hd), contradiction
            exfalso
            have h1 : 2 * x + 1 ∈ a :: rest := by
              rcases hx1 with h | h
              · exact absurd (h.trans hhd) (by omega)
              · exact h
            have h2 : a ≤ 2 * x + 1 := by
              rw [List.mem_cons] at h1
              rcases h1 with h | h
              · omega
              · exact List.rel_of_sorted_cons hsa _ h
            have h4 : a = 2 * x + 1 := by omega
            exact hnot (by rw [h4, hhd, lit_not, two_mul_xor_one])
          · have h2x : 2 * x ∈ a :: rest := by
              rcases hx with h | h
              · exact absurd h.symm hhd
              · exact h
            have h2x1 : 2 * x + 1 ∈ a :: rest := by
              rcases hx1 with h | h
              · exfalso
                have hle : hd ≤ 2 * x := by
                  rw [List.mem_cons] at h2x
                  rcases h2x with h' | h'
                  · omega
                  · exact List.rel_of_sorted_cons hs _ (List.mem_cons_of_mem a h')
                omega
              · exact h
            exact ih a x hsa h2x h2x1
        rw [hgoal]
        rfl

/-- C5: asserting a clause that contains a literal `l` together with its
negation `not(l)` leaves the solver completely unchanged: the tautology is
detected during the sort/dedup scan and the procedure returns before touching
any solver field (no clause added, no counter changed, no literal assigned). -/
theorem simplify_and_add_clause_tautology (s : Solver) (lits : List Nat) (l : Nat)
    (h1 : l ∈ lits) (h2 : lit_not l ∈ lits) :
    nsat_solver_simplify_and_add_clause s lits = s := by
  have hpair : 2 * var_of l ∈ lits ∧ 2 * var_of l + 1 ∈ lits := by
    rcases lit_eq_pos_or_neg l with h | h
    · have hl : l = 2 * var_of l := by rw [h, var_of_pos]; exact rfl
      have hn : lit_not l = 2 * var_of l + 1 := by
        rw [h, lit_not_pos, var_of_pos]; exact rfl
      exact ⟨hl ▸ h1, hn ▸ h2⟩
    · have hl : l = 2 * var_of l + 1 := by rw [h, var_of_neg]; exact rfl
      have hn : lit_not l = 2 * var_of l := by
        rw [h, lit_not_neg, var_of_neg]; exact rfl
      exact ⟨hn ▸ h2, hl ▸ h1⟩
  rcases List.exists_cons_of_ne_nil (List.ne_nil_of_mem h1) with ⟨a, t, hat⟩
  subst hat
  simp only [nsat_solver_simplify_and_add_clause]
  rcases hsort : int_array_sort (a :: t) with _ | ⟨hd, rest⟩
  · exfalso
    have hlen := congrArg List.length hsort
    rw [int_array_sort, List.length_insertionSort] at hlen
    simp at hlen
  · have hmem1 : 2 * var_of l ∈ hd :: rest := by
      rw [← hsort]
      simpa [int_array_sort] using hpair.1
    have hmem2 : 2 * var_of l + 1 ∈ hd :: rest := by
      rw [← hsort]
      simpa [int_array_sort] using hpair.2
    have hsorted : List.Sorted (· ≤ ·) (hd :: rest) := by
      rw [← hsort]
      exact List.sorted_insertionSort _ _
    have hded : dedupTaut hd rest = none :=
      dedupTaut_none rest hd (var_of l) hsorted hmem1 hmem2
    simp only [hsort, hded]

/-- The initial solver state (`init_solver` / `sat_solver_extend`,
new_sat_solver.c lines 2287-2345 and 2695-2710): variable 0 is predefined true
(`value[0] = VAL_TRUE`, `value[1] = VAL_FALSE`, tag `ATAG_UNIT`, level 0);
fresh variables are unassigned with preferred polarity false. -/
def init_solver : Solver where
  value := fun l =>
    if l = 0 then VAL_TRUE else if l = 1 then VAL_FALSE
    else if l % 2 = 0 then VAL_UNDEF_FALSE else VAL_UNDEF_TRUE
  stack := []
  ante_tag := fun x => if x = 0 then .unit else .none
  ante_data := fun _ => 0
  level := fun x => if x = 0 then 0 else 2 ^ 32 - 1
  decision_level := 0
  units := 0
  binaries := 0
  watch := fun _ => []
  pool := []
  sig := fun _ => 0
  occ := fun _ => 0
  preprocess := false
  has_empty_clause := false
  status := .unknown

/-- Witness for `simplify_and_add_clause_tautology`: the clause `{2, 4, 3}`
contains literal 2 and its negation 3. -/
theorem simplify_and_add_clause_tautology_witness :
    2 ∈ [2, 4, 3] ∧ lit_not 2 ∈ [2, 4, 3] ∧
      nsat_solver_simplify_and_add_clause init_solver [2, 4, 3] = init_solver :=
  ⟨by decide, by decide,
    simplify_and_add_clause_tautology init_solver [2, 4, 3] 2 (by decide) (by decide)⟩

/-! ## The solve driver (`sat_search` lines 8040-8094, `nsat_solve` lines
8137-8220)

`sat_search` is an infinite `for (;;)` loop with exactly three exits:
* `need_restart(solver)` holds — it breaks with `status` still `STAT_UNKNOWN`;
* no decision variable is left (`x == 0`) — it sets `status = STAT_SAT`;
* a conflict at decision level 0 — it sets `status = STAT_UNSAT`.

`nsat_solve` is

    if (has_empty_clause) goto done;
    ... init; preprocessing or level-0 propagation, each followed by
    nsat_simplify, any of which may add the empty clause (status := UNSAT) ...
    while (!has_empty_clause) {
      sat_search(solver);
      if (solver->status != STAT_UNKNOWN) break;
      ... full or partial restart; possibly nsat_simplify, which may add
          the empty clause ...
    }
  done:
    assert(solver->status == STAT_UNSAT || solver->status == STAT_SAT);
    ... return solver->status;

The driver is embedded as a skeleton over the statuses: one `SearchStep` per
`sat_search` call records which of the three exits it took, how many conflicts
it accrued, and whether the simplify round that follows a restart exit added
the empty clause.  `solve_loop` consumes the steps exactly as the `while` loop
does; `none` means the trace ran out (the loop would keep searching) — there
is no other way to leave the loop.  Nothing in `nsat_solve`, `sat_search` or
`need_restart` consults any conflict budget: the only budget in the file is
`diving_budget`, used by the `#if 0`-disabled diving code. -/

inductive SearchExit where
  | sat : SearchExit
  | unsat : SearchExit
  | restart : SearchExit
deriving DecidableEq

structure SearchStep where
  exit : SearchExit
  conflicts : Nat
  simplify_empty : Bool
deriving DecidableEq

def solve_loop : List SearchStep → Option Status
  | [] => none
  | step :: rest =>
    match step.exit with
    | .sat => some .sat
    | .unsat => some .unsat
    | .restart => if step.simplify_empty then some .unsat else solve_loop rest

def nsat_solve_skel (has_empty : Bool) (st : Status) (pre_empty : Bool)
    (steps : List SearchStep) : Option Status :=
  if has_empty then some st
  else if pre_empty then some .unsat
  else solve_loop steps

def total_conflicts (steps : List SearchStep) : Nat :=
  (steps.map (fun step => step.conflicts)).sum

/-- The C1 claim as stated: for every budget the caller may have chosen, if
the search exceeds it then solve returns the interrupted status. -/
def budget_interrupt_claim : Prop :=
  ∀ (budget : Nat) (has_empty : Bool) (st : Status) (pre_empty : Bool)
    (steps : List SearchStep),
    total_conflicts steps > budget →
      nsat_solve_skel has_empty st pre_empty steps = some Status.interrupted

/-- C1, counterexample: with budget 0 and a single search round that accrues
5 conflicts and exits with SAT, `nsat_solve` returns `sat`, not `interrupted`
— there is no conflict budget anywhere in the driver. -/
theorem solve_budget_counterexample : ¬ budget_interrupt_claim := by
  intro h
  have h5 : total_conflicts [⟨.sat, 5, false⟩] > 0 := by decide
  have := h 0 false .unknown false [⟨.sat, 5, false⟩] h5
  simp [nsat_solve_skel, solve_loop] at this

/-- C1, amended: the solver has no conflict budget; whenever `nsat_solve`
returns — under the `add_empty_clause` invariant that a pre-existing empty
clause comes with `status = STAT_UNSAT` — the result is `sat` or `unsat`,
never `interrupted` (nor `unknown`), no matter how many conflicts occurred. -/
theorem nsat_solve_skel_result (has_empty : Bool) (st : Status) (pre_empty : Bool)
    (steps : List SearchStep) (r : Status)
    (hempty : has_empty = true → st = .unsat)
    (hr : nsat_solve_skel has_empty st pre_empty steps = some r) :
    r = .sat ∨ r = .unsat := by
  unfold nsat_solve_skel at hr
  cases has_empty with
  | true =>
    rw [if_pos rfl] at hr
    right
    rw [← hempty rfl]
    exact (Option.some_inj.mp hr).symm
  | false =>
    rw [if_neg (by simp)] at hr
    cases pre_empty with
    | true =>
      rw [if_pos rfl] at hr
      exact Or.inr (Option.some_inj.mp hr).symm
    | false =>
      rw [if_neg (by simp)] at hr
      induction steps with
      | nil => exact absurd hr (by simp [solve_loop])
      | cons step rest ih =>
        rw [solve_loop] at hr
        rcases hstep : step.exit with _ | _ | _ <;> rw [hstep] at hr
        · exact Or.inl (Option.some_inj.mp hr).symm
        · exact Or.inr (Option.some_inj.mp hr).symm
        · by_cases hse : step.simplify_empty = true
          · rw [if_pos hse] at hr
            exact Or.inr (Option.some_inj.mp hr).symm
          · rw [if_neg hse] at hr
            exact ih hr

/-- Witness for `nsat_solve_skel_result`: a restart round followed by a SAT
round. -/
theorem nsat_solve_skel_result_witness :
    nsat_solve_skel false .unknown false [⟨.restart, 3, false⟩, ⟨.sat, 2, false⟩] =
        some Status.sat ∧
      (Status.sat = .sat ∨ Status.sat = .unsat) :=
  ⟨by decide,
    nsat_solve_skel_result false .unknown false [⟨.restart, 3, false⟩, ⟨.sat, 2, false⟩]
      Status.sat (by intro h; simp at h) (by decide)⟩

/-- C4: asserting the empty clause — and likewise asserting the unit clause
`{¬0}` (literal 1), whose only literal is already false because variable 0 is
permanently true (`value[1] = VAL_FALSE`) — calls `add_empty_clause`, setting
`has_empty_clause` and `status = STAT_UNSAT`; and on every state with the
empty-clause flag set (which always comes with `status = STAT_UNSAT`),
`nsat_solve` takes the `goto done` exit immediately and returns `unsat`, for
every possible search trace (i.e. without searching). -/
theorem empty_clause_terminal_spec (s : Solver) (hval : s.value 1 = VAL_FALSE) :
    ((nsat_solver_simplify_and_add_clause s []).has_empty_clause = true ∧
      (nsat_solver_simplify_and_add_clause s []).status = .unsat) ∧
    ((nsat_solver_simplify_and_add_clause s [1]).has_empty_clause = true ∧
      (nsat_solver_simplify_and_add_clause s [1]).status = .unsat) ∧
    (∀ (s' : Solver), s'.has_empty_clause = true → s'.status = .unsat →
      ∀ (pre_empty : Bool) (steps : List SearchStep),
        nsat_solve_skel s'.has_empty_clause s'.status pre_empty steps =
          some Status.unsat) := by
  have hs1 : int_array_sort [1] = [1] := rfl
  have hrem : remove_false_lits s [1] = some [] := by
    simp [remove_false_lits, hval]
  have h1 : nsat_solver_simplify_and_add_clause s [1] =
      (if (add_empty_clause s).preprocess then
        increase_occurrence_counts (add_empty_clause s) []
      else add_empty_clause s) := by
    simp only [nsat_solver_simplify_and_add_clause, hs1, dedupTaut, hrem]
  have hocc : increase_occurrence_counts (add_empty_clause s) [] = add_empty_clause s := rfl
  refine ⟨⟨rfl, rfl⟩, ?_, ?_⟩
  · rw [h1, hocc, ite_self]
    exact ⟨rfl, rfl⟩
  · intro s' he hst pre_empty steps
    simp [nsat_solve_skel, he, hst]

/-- Witness for `empty_clause_terminal_spec` at the initial solver. -/
theorem empty_clause_terminal_spec_witness :
    init_solver.value 1 = VAL_FALSE ∧
      (nsat_solver_simplify_and_add_clause init_solver [1]).has_empty_clause = true ∧
      (nsat_solver_simplify_and_add_clause init_solver [1]).status = .unsat :=
  ⟨rfl, (empty_clause_terminal_spec init_solver rfl).2.1.1,
    (empty_clause_terminal_spec init_solver rfl).2.1.2⟩

/-! ## The value-array complement invariant (C10)

Every write to the `value` array in new_sat_solver.c pairs the two literals of
a variable: `assign_literal` (lines 2826-2827), `nsat_decide_literal` (2872-
2873), `implied_literal` (2903-2904) write `VAL_TRUE`/`VAL_FALSE`; `backtrack`
(6857-6858) XORs both entries with `0x2`; `extend_assignment_for_block`
(7611-7612) writes `val`/`opposite_val(val)`; initialization writes
complementary constants.  `backtrack`'s per-literal value update over the
popped trail segment is embedded as `backtrack_values`. -/

/-- The invariant: the stored values of the two literals of every variable are
exact complements (`VAL_TRUE`/`VAL_FALSE`, `VAL_UNDEF_TRUE`/`VAL_UNDEF_FALSE`). -/
def value_complement (v : Nat → Nat) : Prop :=
  ∀ x, v (neg_lit x) = opposite_val (v (pos_lit x))

/-- One `backtrack` iteration's value writes for the variable of trail literal
`l`: `value[pos_lit(x)] ^= 0x2; value[neg_lit(x)] ^= 0x2`. -/
def backtrack_step (v : Nat → Nat) (l : Nat) : Nat → Nat :=
  let x := var_of l
  Function.update (Function.update v (pos_lit x) (v (pos_lit x) ^^^ 2))
    (neg_lit x) (v (neg_lit x) ^^^ 2)

/-- `backtrack`'s value updates over the whole popped trail segment. -/
def backtrack_values (popped : List Nat) (v : Nat → Nat) : Nat → Nat :=
  popped.foldl backtrack_step v

theorem pos_lit_ne_neg_lit (x y : Nat) : pos_lit x ≠ neg_lit y := by
  simp [pos_lit, neg_lit]
  omega

theorem pos_lit_inj_ne (x y : Nat) (h : x ≠ y) : pos_lit x ≠ pos_lit y := by
  simp [pos_lit]
  omega

theorem neg_lit_inj_ne (x y : Nat) (h : x ≠ y) : neg_lit x ≠ neg_lit y := by
  simp [neg_lit]
  omega

/-- Writing `a` to `l` and `opposite_val a` to `not(l)` preserves the
complement invariant. -/
theorem value_complement_pair_update (v : Nat → Nat) (l a b : Nat)
    (hinv : value_complement v) (hab : b = opposite_val a) :
    value_complement (Function.update (Function.update v l a) (lit_not l) b) := by
  intro x
  have hlnl : l ≠ lit_not l := (lit_not_ne l).symm
  rcases lit_eq_pos_or_neg l with h | h
  · by_cases hx : x = var_of l
    · rw [hx, show neg_lit (var_of l) = lit_not l by rw [← lit_not_pos, ← h],
        show pos_lit (var_of l) = l from h.symm, Function.update_same,
        Function.update_noteq hlnl, Function.update_same]
      exact hab
    · have h1 : neg_lit x ≠ lit_not l := by
        rw [h, lit_not_pos]
        exact neg_lit_inj_ne x (var_of l) hx
      have h2 : neg_lit x ≠ l := by
        rw [h]
        exact (pos_lit_ne_neg_lit (var_of l) x).symm
      have h3 : pos_lit x ≠ lit_not l := by
        rw [h, lit_not_pos]
        exact pos_lit_ne_neg_lit x (var_of l)
      have h4 : pos_lit x ≠ l := by
        rw [h]
        exact pos_lit_inj_ne x (var_of l) hx
      rw [Function.update_noteq h1, Function.update_noteq h2,
        Function.update_noteq h3, Function.update_noteq h4]
      exact hinv x
  · by_cases hx : x = var_of l
    · rw [hx, show neg_lit (var_of l) = l from h.symm,
        show pos_lit (var_of l) = lit_not l by rw [← lit_not_neg, ← h],
        Function.update_noteq hlnl, Function.update_same, Function.update_same]
      rw [hab, opposite_val, opposite_val, Nat.xor_assoc, Nat.xor_self, Nat.xor_zero]
    · have h1 : neg_lit x ≠ lit_not l := by
        rw [h, lit_not_neg]
        exact (pos_lit_ne_neg_lit (var_of l) x).symm
      have h2 : neg_lit x ≠ l := by
        rw [h]
        exact neg_lit_inj_ne x (var_of l) hx
      have h3 : pos_lit x ≠ lit_not l := by
        rw [h, lit_not_neg]
        exact pos_lit_inj_ne x (var_of l) hx
      have h4 : pos_lit x ≠ l := by
        rw [h]
        exact pos_lit_ne_neg_lit x (var_of l)
      rw [Function.update_noteq h1, Function.update_noteq h2,
        Function.update_noteq h3, Function.update_noteq h4]
      exact hinv x

theorem backtrack_step_complement (v : Nat → Nat) (l : Nat)
    (hinv : value_complement v) : value_complement (backtrack_step v l) := by
  intro x
  unfold backtrack_step
  by_cases hx : x = var_of l
  · rw [hx, Function.update_same,
      Function.update_noteq (pos_lit_ne_neg_lit (var_of l) (var_of l)),
      Function.update_same, hinv (var_of l), opposite_val, opposite_val,
      Nat.xor_assoc, Nat.xor_assoc, Nat.xor_comm 1 2]
  · rw [Function.update_noteq (neg_lit_inj_ne x (var_of l) hx),
      Function.update_noteq ((pos_lit_ne_neg_lit (var_of l) x).symm),
      Function.update_noteq (pos_lit_ne_neg_lit x (var_of l)),
      Function.update_noteq (pos_lit_inj_ne x (var_of l) hx)]
    exact hinv x

theorem backtrack_values_complement (popped : List Nat) :
    ∀ v, value_complement v → value_complement (backtrack_values popped v) := by
  induction popped with
  | nil => intro v hv; exact hv
  | cons l rest ih =>
    intro v hv
    exact ih _ (backtrack_step_complement v l hv)

theorem backtrack_step_other (v : Nat → Nat) (l : Nat) (x : Nat) (hx : x ≠ var_of l) :
    backtrack_step v l (pos_lit x) = v (pos_lit x) ∧
      backtrack_step v l (neg_lit x) = v (neg_lit x) := by
  unfold backtrack_step
  constructor
  · rw [Function.update_noteq (pos_lit_ne_neg_lit x (var_of l)),
      Function.update_noteq (pos_lit_inj_ne x (var_of l) hx)]
  · rw [Function.update_noteq (neg_lit_inj_ne x (var_of l) hx),
      Function.update_noteq ((pos_lit_ne_neg_lit (var_of l) x).symm)]

theorem backtrack_values_frame (popped : List Nat) :
    ∀ v x, x ∉ popped.map var_of →
      backtrack_values popped v (pos_lit x) = v (pos_lit x) ∧
        backtrack_values popped v (neg_lit x) = v (neg_lit x) := by
  induction popped with
  | nil => intro v x _; exact ⟨rfl, rfl⟩
  | cons l rest ih =>
    intro v x hx
    simp only [List.map_cons, List.mem_cons, not_or] at hx
    have h1 := ih (backtrack_step v l) x hx.2
    have h2 := backtrack_step_other v l x hx.1
    exact ⟨h1.1.trans h2.1, h1.2.trans h2.2⟩

theorem backtrack_values_popped (popped : List Nat) :
    ∀ v, (popped.map var_of).Nodup →
      ∀ x ∈ popped.map var_of,
        backtrack_values popped v (pos_lit x) = v (pos_lit x) ^^^ 2 ∧
          backtrack_values popped v (neg_lit x) = v (neg_lit x) ^^^ 2 := by
  induction popped with
  | nil => intro v _ x hx; cases hx
  | cons l rest ih =>
    intro v hnd x hx
    simp only [List.map_cons, List.mem_cons] at hx
    simp only [List.map_cons, List.nodup_cons] at hnd
    rcases hx with hx | hx
    · rw [hx]
      have hframe := backtrack_values_frame rest (backtrack_step v l) (var_of l) hnd.1
      have hstep : backtrack_step v l (pos_lit (var_of l)) = v (pos_lit (var_of l)) ^^^ 2 ∧
          backtrack_step v l (neg_lit (var_of l)) = v (neg_lit (var_of l)) ^^^ 2 := by
        unfold backtrack_step
        constructor
        · rw [Function.update_noteq (pos_lit_ne_neg_lit (var_of l) (var_of l)),
            Function.update_same]
        · rw [Function.update_same]
      exact ⟨hframe.1.trans hstep.1, hframe.2.trans hstep.2⟩
    · have h1 := ih (backtrack_step v l) hnd.2 x hx
      have hne : x ≠ var_of l := fun h => hnd.1 (h ▸ hx)
      have h2 := backtrack_step_other v l x hne
      exact ⟨h1.1.trans (congrArg (· ^^^ 2) h2.1), h1.2.trans (congrArg (· ^^^ 2) h2.2)⟩

/-- C10: every value-array write pairs the two literals of a variable with
exact complements, so the invariant `value[neg_lit x] = value[pos_lit x] ^ 1`
is preserved by `assign_literal`, `implied_literal`, `backtrack`, and
`extend_assignment_for_block`; and backtracking changes exactly the popped
variables, flipping only the assignment bit (`^ 0x2`) of both literals. -/
theorem value_complement_invariant (s : Solver) (l : Nat) (tag : ATag) (data : Nat)
    (popped : List Nat) (block : List Nat)
    (hinv : value_complement s.value) :
    value_complement (assign_literal s l).value ∧
    value_complement (implied_literal s l tag data).value ∧
    value_complement (backtrack_values popped s.value) ∧
    ((popped.map var_of).Nodup →
      ∀ x, (x ∈ popped.map var_of →
          backtrack_values popped s.value (pos_lit x) = s.value (pos_lit x) ^^^ 2 ∧
          backtrack_values popped s.value (neg_lit x) = s.value (neg_lit x) ^^^ 2) ∧
        (x ∉ popped.map var_of →
          backtrack_values popped s.value (pos_lit x) = s.value (pos_lit x) ∧
          backtrack_values popped s.value (neg_lit x) = s.value (neg_lit x))) ∧
    value_complement (extend_assignment_for_block s.value block) := by
  refine ⟨?_, ?_, ?_, ?_, ?_⟩
  · exact value_complement_pair_update s.value l VAL_TRUE VAL_FALSE hinv rfl
  · exact value_complement_pair_update s.value l VAL_TRUE VAL_FALSE hinv rfl
  · exact backtrack_values_complement popped s.value hinv
  · intro hnd x
    exact ⟨fun hx => backtrack_values_popped popped s.value hnd x hx,
      fun hx => backtrack_values_frame popped s.value x hx⟩
  · unfold extend_assignment_for_block
    exact value_complement_pair_update s.value _ _ _ hinv rfl

/-- The initial solver's value array satisfies the complement invariant. -/
theorem init_value_complement : value_complement init_solver.value := by
  intro x
  by_cases h0 : x = 0
  · subst h0; rfl
  · have e1 : 2 * x ≠ 0 := by omega
    have e2 : 2 * x ≠ 1 := by omega
    have e3 : 2 * x % 2 = 0 := by omega
    have e4 : 2 * x + 1 ≠ 0 := by omega
    have e5 : 2 * x + 1 ≠ 1 := by omega
    have e6 : ¬ ((2 * x + 1) % 2 = 0) := by omega
    show init_solver.value (neg_lit x) = opposite_val (init_solver.value (pos_lit x))
    simp only [init_solver, pos_lit, neg_lit, if_neg e1, if_neg e2, if_pos e3,
      if_neg e4, if_neg e5, if_neg e6]
    rfl

/-- Witness for `value_complement_invariant` at the initial solver state. -/
theorem value_complement_invariant_witness :
    value_complement init_solver.value ∧
      value_complement (assign_literal init_solver 2).value :=
  ⟨init_value_complement,
    (value_complement_invariant init_solver 2 ATag.unit 0 [] []
      init_value_complement).1⟩

/-! ## Equivalence substitution: processing one SCC
(`scc_representative` lines 4073-4103, `process_scc` lines 4122-4172; callers
`dfs_explore` / `compute_sccs` lines 4240-4330)

`process_scc(solver, l)` receives the root `l` of a strongly-connected
component whose elements sit on `vertex_stack` above `l`; it pops them until it
pops `l` itself, so the component is processed in pop order with the root
last.  We embed the component as that pop-order list `comp` (so
`comp = front ++ [root]`).  The state carries the fields the function touches:
antecedent tags and data (the substitution), the Tarjan `label` array (popped
literals are marked `UINT32_MAX`), the `stats.subst_vars` counter, and the
empty-clause flag.  Variable activities (C `double`, only compared) are
modelled as `ℚ`. -/

def UINT32_MAX : Nat := 2 ^ 32 - 1

structure SccState where
  ante_tag : Nat → ATag
  ante_data : Nat → Nat
  label : Nat → Nat
  subst_vars : Nat
  has_empty_clause : Bool
  status : Status

/-- `var_is_eliminated`: tag at least `ATAG_PURE`. -/
def var_is_eliminated (st : SccState) (x : Nat) : Bool :=
  decide (6 ≤ (st.ante_tag x).code)

def lit_is_eliminated (st : SccState) (l : Nat) : Bool :=
  var_is_eliminated st (var_of l)

/-- `set_lit_subst(solver, l1, l2)`: tag `var_of(l1)` as substituted and store
`l2 ^ sign_of_lit(l1)` as the antecedent data. -/
def set_lit_subst (st : SccState) (l1 l2 : Nat) : SccState :=
  { st with
    subst_vars := st.subst_vars + 1
    ante_tag := Function.update st.ante_tag (var_of l1) ATag.subst
    ante_data := Function.update st.ante_data (var_of l1) (l2 ^^^ sign_of_lit l1) }

/-- The `add_empty_clause` call made by `process_scc` on an inconsistent SCC. -/
def scc_add_empty_clause (st : SccState) : SccState :=
  { st with has_empty_clause := true, status := .unsat }

/-- `scc_representative`, preprocessing mode: scan the component in pop order,
keeping the smallest literal; stop after the root. -/
def scc_rep_preprocess (root : Nat) : Nat → List Nat → Nat
  | rep, [] => rep
  | rep, l0 :: rest =>
    let rep' := if l0 < rep then l0 else rep
    if l0 = root then rep' else scc_rep_preprocess root rep' rest

/-- `scc_representative`, search mode: keep the highest-activity literal
(smallest literal on activity ties); stop after the root. -/
def scc_rep_search (act : Nat → ℚ) (root : Nat) : Nat → ℚ → List Nat → Nat
  | rep, _, [] => rep
  | rep, ma, l0 :: rest =>
    let p := if act l0 > ma ∨ (act l0 = ma ∧ l0 < rep) then (l0, act l0) else (rep, ma)
    if l0 = root then p.1 else scc_rep_search act root p.1 p.2 rest

def scc_representative (preprocess : Bool) (act : Nat → ℚ) (root : Nat)
    (comp : List Nat) : Nat :=
  if preprocess then scc_rep_preprocess root root comp
  else scc_rep_search act root root (act root) comp

/-- The substitution loop of `process_scc` (the `else` branch): pop each
literal, mark its label, break with the empty clause if its variable is
already eliminated (the SCC contains complementary literals), otherwise record
`subst[l0] := rep`; stop after the root. -/
def process_scc_loop (root rep : Nat) : SccState → List Nat → SccState
  | st, [] => st
  | st, l0 :: rest =>
    let st1 := { st with label := Function.update st.label l0 UINT32_MAX }
    if lit_is_eliminated st1 l0 then scc_add_empty_clause st1
    else
      let st2 := if l0 ≠ rep then set_lit_subst st1 l0 rep else st1
      if l0 = root then st2 else process_scc_loop root rep st2 rest

/-- `process_scc`: if the complementary component was processed before
(`label[not(l)] == UINT32_MAX`), only mark this component explored; otherwise
run the substitution loop with the chosen representative. -/
def process_scc (preprocess : Bool) (act : Nat → ℚ) (root : Nat) (st : SccState)
    (comp : List Nat) : SccState :=
  if st.label (lit_not root) = UINT32_MAX then
    comp.foldl (fun st l0 =>
      { st with label := Function.update st.label l0 UINT32_MAX }) st
  else
    process_scc_loop root (scc_representative preprocess act root comp) st comp

theorem scc_rep_preprocess_spec (front : List Nat) (root : Nat) (hroot : root ∉ front) :
    ∀ cur, (scc_rep_preprocess root cur (front ++ [root]) = cur ∨
        scc_rep_preprocess root cur (front ++ [root]) ∈ front ++ [root]) ∧
      scc_rep_preprocess root cur (front ++ [root]) ≤ cur ∧
      ∀ l ∈ front ++ [root], scc_rep_preprocess root cur (front ++ [root]) ≤ l := by
  induction front with
  | nil =>
    intro cur
    by_cases h : root < cur
    · have hred : scc_rep_preprocess root cur ([] ++ [root]) = root := by
        simp [scc_rep_preprocess, h]
      rw [hred]
      refine ⟨Or.inr (by simp), by omega, ?_⟩
      intro l hl
      simp only [List.nil_append, List.mem_singleton] at hl
      omega
    · have hred : scc_rep_preprocess root cur ([] ++ [root]) = cur := by
        simp [scc_rep_preprocess, h]
      rw [hred]
      refine ⟨Or.inl rfl, le_refl _, ?_⟩
      intro l hl
      simp only [List.nil_append, List.mem_singleton] at hl
      omega
  | cons a front ih =>
    intro cur
    have ha : a ≠ root := fun h => hroot (by simp [h])
    have hroot' : root ∉ front := fun h => hroot (by simp [h])
    simp only [List.cons_append, scc_rep_preprocess, if_neg ha, List.append_eq]
    by_cases h : a < cur
    · simp only [if_pos h]
      rcases ih hroot' a with ⟨hm, hle, hall⟩
      refine ⟨?_, by omega, ?_⟩
      · rcases hm with hm | hm
        · exact Or.inr (by rw [hm]; exact List.mem_cons_self _ _)
        · exact Or.inr (List.mem_cons_of_mem _ hm)
      · intro l hl
        rcases List.mem_cons.mp hl with hl | hl
        · subst hl; omega
        · exact hall l hl
    · simp only [if_neg h]
      rcases ih hroot' cur with ⟨hm, hle, hall⟩
      refine ⟨?_, hle, ?_⟩
      · rcases hm with hm | hm
        · exact Or.inl hm
        · exact Or.inr (List.mem_cons_of_mem _ hm)
      · intro l hl
        rcases List.mem_cons.mp hl with hl | hl
        · subst hl; omega
        · exact hall l hl

theorem scc_rep_search_spec (act : Nat → ℚ) (front : List Nat) (root : Nat)
    (hroot : root ∉ front) :
    ∀ cur, (scc_rep_search act root cur (act cur) (front ++ [root]) = cur ∨
        scc_rep_search act root cur (act cur) (front ++ [root]) ∈ front ++ [root]) ∧
      act cur ≤ act (scc_rep_search act root cur (act cur) (front ++ [root])) ∧
      ∀ l ∈ front ++ [root],
        act l ≤ act (scc_rep_search act root cur (act cur) (front ++ [root])) := by
  induction front with
  | nil =>
    intro cur
    by_cases h : act root > act cur ∨ (act root = act cur ∧ root < cur)
    · have hred : scc_rep_search act root cur (act cur) ([] ++ [root]) = root := by
        simp [scc_rep_search, h]
      rw [hred]
      refine ⟨Or.inr (by simp), ?_, ?_⟩
      · rcases h with h | ⟨h, _⟩
        · exact le_of_lt h
        · exact le_of_eq h.symm
      · intro l hl
        simp only [List.nil_append, List.mem_singleton] at hl
        subst hl
        exact le_refl _
    · have hred : scc_rep_search act root cur (act cur) ([] ++ [root]) = cur := by
        simp [scc_rep_search, h]
      rw [hred]
      push_neg at h
      refine ⟨Or.inl rfl, le_refl _, ?_⟩
      intro l hl
      simp only [List.nil_append, List.mem_singleton] at hl
      subst hl
      exact h.1
  | cons a front ih =>
    intro cur
    have ha : a ≠ root := fun h => hroot (by simp [h])
    have hroot' : root ∉ front := fun h => hroot (by simp [h])
    simp only [List.cons_append, scc_rep_search, if_neg ha, List.append_eq]
    by_cases h : act a > act cur ∨ (act a = act cur ∧ a < cur)
    · simp only [if_pos h]
      rcases ih hroot' a with ⟨hm, hle, hall⟩
      have hca : act cur ≤ act a := by
        rcases h with h | ⟨h, _⟩
        · exact le_of_lt h
        · exact le_of_eq h.symm
      refine ⟨?_, le_trans hca hle, ?_⟩
      · rcases hm with hm | hm
        · exact Or.inr (by rw [hm]; exact List.mem_cons_self _ _)
        · exact Or.inr (List.mem_cons_of_mem _ hm)
      · intro l hl
        rcases List.mem_cons.mp hl with hl | hl
        · subst hl; exact hle
        · exact hall l hl
    · simp only [if_neg h]
      push_neg at h
      rcases ih hroot' cur with ⟨hm, hle, hall⟩
      refine ⟨?_, hle, ?_⟩
      · rcases hm with hm | hm
        · exact Or.inl hm
        · exact Or.inr (List.mem_cons_of_mem _ hm)
      · intro l hl
        rcases List.mem_cons.mp hl with hl | hl
        · subst hl
          exact le_trans h.1 hle
        · exact hall l hl

theorem set_lit_subst_elim (st : SccState) (l1 l2 : Nat) (x : Nat)
    (h : var_is_eliminated st x = true) :
    var_is_eliminated (set_lit_subst st l1 l2) x = true := by
  unfold var_is_eliminated set_lit_subst at *
  by_cases hx : x = var_of l1
  · rw [hx]
    simp [Function.update_same, ATag.code]
  · simpa [Function.update_noteq hx] using h

theorem set_lit_subst_elim_self (st : SccState) (l1 l2 : Nat) :
    var_is_eliminated (set_lit_subst st l1 l2) (var_of l1) = true := by
  unfold var_is_eliminated set_lit_subst
  simp [Function.update_same, ATag.code]

theorem process_scc_loop_hits (root rep : Nat) :
    ∀ (w : List Nat) (st : SccState) (l2 : Nat) (r : List Nat),
      root ∉ w → var_is_eliminated st (var_of l2) = true →
      (process_scc_loop root rep st (w ++ l2 :: r)).has_empty_clause = true := by
  intro w
  induction w with
  | nil =>
    intro st l2 r _ helim
    simp only [List.nil_append, process_scc_loop]
    rw [if_pos (by simpa [lit_is_eliminated, var_is_eliminated] using helim)]
    rfl
  | cons a w ih =>
    intro st l2 r hroot helim
    have ha : a ≠ root := fun h => hroot (by simp [h])
    have hroot' : root ∉ w := fun h => hroot (by simp [h])
    simp only [List.cons_append, process_scc_loop]
    by_cases he : lit_is_eliminated
        { st with label := Function.update st.label a UINT32_MAX } a = true
    · rw [if_pos he]
      rfl
    · rw [if_neg he, if_neg ha]
      by_cases har : a ≠ rep
      · rw [if_pos har]
        exact ih _ l2 r hroot' (set_lit_subst_elim _ a rep _ helim)
      · rw [if_neg har]
        exact ih _ l2 r hroot' helim

theorem process_scc_loop_unsat (root rep : Nat) :
    ∀ (u : List Nat) (st : SccState) (l1 : Nat) (w : List Nat) (l2 : Nat) (r : List Nat),
      var_of l1 = var_of l2 → l1 ≠ rep → l1 ≠ root → root ∉ u → root ∉ w →
      (process_scc_loop root rep st (u ++ l1 :: w ++ l2 :: r)).has_empty_clause = true := by
  intro u
  induction u with
  | nil =>
    intro st l1 w l2 r hv h1r h1root _ hw
    simp only [List.nil_append, process_scc_loop]
    by_cases he : lit_is_eliminated
        { st with label := Function.update st.label l1 UINT32_MAX } l1 = true
    · rw [if_pos he]
      rfl
    · rw [if_neg he, if_pos h1r, if_neg h1root]
      apply process_scc_loop_hits root rep w _ l2 r hw
      rw [← hv]
      exact set_lit_subst_elim_self _ l1 rep
  | cons a u ih =>
    intro st l1 w l2 r hv h1r h1root hroot hw
    have ha : a ≠ root := fun h => hroot (by simp [h])
    have hroot' : root ∉ u := fun h => hroot (by simp [h])
    simp only [List.cons_append, process_scc_loop]
    by_cases he : lit_is_eliminated
        { st with label := Function.update st.label a UINT32_MAX } a = true
    · rw [if_pos he]
      rfl
    · rw [if_neg he, if_neg ha]
      by_cases har : a ≠ rep
      · rw [if_pos har]
        exact ih _ l1 w l2 r hv h1r h1root hroot' hw
      · rw [if_neg har]
        exact ih _ l1 w l2 r hv h1r h1root hroot' hw

/-- The substitution loop on a component without complementary literals:
the empty-clause flag is untouched, every non-representative literal gets
`subst[l] := rep` recorded (tag `ATAG_SUBST`, data `rep ^ sign(l)`), and the
tags and data of variables outside the component are unchanged. -/
theorem process_scc_loop_no_pair (rep : Nat) :
    ∀ (front : List Nat) (root : Nat) (st : SccState),
      root ∉ front →
      List.Pairwise (fun a b => var_of a ≠ var_of b) (front ++ [root]) →
      (∀ l ∈ front ++ [root], var_is_eliminated st (var_of l) = false) →
      (process_scc_loop root rep st (front ++ [root])).has_empty_clause =
          st.has_empty_clause ∧
      (∀ l ∈ front ++ [root], l ≠ rep →
        (process_scc_loop root rep st (front ++ [root])).ante_tag (var_of l) =
            ATag.subst ∧
        (process_scc_loop root rep st (front ++ [root])).ante_data (var_of l) =
            rep ^^^ sign_of_lit l) ∧
      (∀ x, x ∉ (front ++ [root]).map var_of →
        (process_scc_loop root rep st (front ++ [root])).ante_tag x = st.ante_tag x ∧
        (process_scc_loop root rep st (front ++ [root])).ante_data x = st.ante_data x) := by
  intro front
  induction front with
  | nil =>
    intro root st _ _ helim
    have hel : var_is_eliminated st (var_of root) = false := helim root (by simp)
    have hne : ¬ (lit_is_eliminated
        { st with label := Function.update st.label root UINT32_MAX } root = true) := by
      have h0 : lit_is_eliminated
          { st with label := Function.update st.label root UINT32_MAX } root =
          var_is_eliminated st (var_of root) := rfl
      rw [h0, hel]
      simp
    simp only [List.nil_append, process_scc_loop]
    rw [if_neg hne, ite_self]
    by_cases hr : root ≠ rep
    · rw [if_pos hr]
      refine ⟨rfl, ?_, ?_⟩
      · intro l hl _
        simp only [List.mem_singleton] at hl
        subst hl
        exact ⟨by simp [set_lit_subst, Function.update_same],
          by simp [set_lit_subst, Function.update_same]⟩
      · intro x hx
        simp only [List.map_cons, List.map_nil, List.mem_singleton] at hx
        exact ⟨by simp [set_lit_subst, Function.update_noteq hx],
          by simp [set_lit_subst, Function.update_noteq hx]⟩
    · rw [if_neg hr]
      push_neg at hr
      refine ⟨rfl, ?_, fun x _ => ⟨rfl, rfl⟩⟩
      intro l hl hlr
      simp only [List.mem_singleton] at hl
      exact absurd (hl.trans hr) hlr
  | cons a front ih =>
    intro root st hroot hpw helim
    have ha : a ≠ root := fun h => hroot (by simp [h])
    have hroot' : root ∉ front := fun h => hroot (by simp [h])
    simp only [List.cons_append] at hpw ⊢
    have hpw' : List.Pairwise (fun a b => var_of a ≠ var_of b) (front ++ [root]) :=
      hpw.of_cons
    have hvars : ∀ l ∈ front ++ [root], var_of a ≠ var_of l :=
      fun l hl => List.rel_of_pairwise_cons hpw hl
    have hel : var_is_eliminated st (var_of a) = false := helim a (by simp)
    have hne : ¬ (lit_is_eliminated
        { st with label := Function.update st.label a UINT32_MAX } a = true) := by
      have h0 : lit_is_eliminated
          { st with label := Function.update st.label a UINT32_MAX } a =
          var_is_eliminated st (var_of a) := rfl
      rw [h0, hel]
      simp
    simp only [process_scc_loop]
    rw [if_neg hne, if_neg ha]
    set st1 : SccState :=
      { st with label := Function.update st.label a UINT32_MAX } with hst1
    by_cases har : a ≠ rep
    · rw [if_pos har]
      have helim2 : ∀ l ∈ front ++ [root],
          var_is_eliminated (set_lit_subst st1 a rep) (var_of l) = false := by
        intro l hl
        have hne2 : var_of l ≠ var_of a := (hvars l hl).symm
        have h0 : (set_lit_subst st1 a rep).ante_tag (var_of l) = st.ante_tag (var_of l) := by
          simp only [hst1, set_lit_subst]
          rw [Function.update_noteq hne2]
        unfold var_is_eliminated
        rw [h0]
        exact helim l (by simp [hl])
      rcases ih root (set_lit_subst st1 a rep) hroot' hpw' helim2 with ⟨h1, h2, h3⟩
      refine ⟨h1, ?_, ?_⟩
      · intro l hl hlr
        rcases List.mem_cons.mp hl with hl | hl
        · subst hl
          have hnotin : var_of l ∉ (front ++ [root]).map var_of := by
            intro hcon
            rcases List.mem_map.mp hcon with ⟨b, hb, hvb⟩
            exact hvars b hb hvb.symm
          rcases h3 (var_of l) hnotin with ⟨ht, hd⟩
          refine ⟨?_, ?_⟩
          · rw [ht]
            simp [set_lit_subst, Function.update_same]
          · rw [hd]
            simp [set_lit_subst, Function.update_same]
        · exact h2 l hl hlr
      · intro x hx
        simp only [List.map_cons, List.mem_cons, not_or] at hx
        rcases h3 x (by simpa using hx.2) with ⟨ht, hd⟩
        refine ⟨?_, ?_⟩
        · rw [ht]
          simp [set_lit_subst, Function.update_noteq hx.1]
        · rw [hd]
          simp [set_lit_subst, Function.update_noteq hx.1]
    · rw [if_neg har]
      push_neg at har
      have helim2 : ∀ l ∈ front ++ [root],
          var_is_eliminated st1 (var_of l) = false := by
        intro l hl
        exact helim l (by simp [hl])
      rcases ih root st1 hroot' hpw' helim2 with ⟨h1, h2, h3⟩
      refine ⟨h1, ?_, ?_⟩
      · intro l hl hlr
        rcases List.mem_cons.mp hl with hl | hl
        · exact absurd (hl.trans har) hlr
        · exact h2 l hl hlr
      · intro x hx
        simp only [List.map_cons, List.mem_cons, not_or] at hx
        exact h3 x (by simpa using hx.2)

theorem eq_lit_not_of_var_eq (a b : Nat) (hv : var_of a = var_of b) (hne : a ≠ b) :
    b = lit_not a := by
  rcases lit_eq_pos_or_neg a with h1 | h1 <;> rcases lit_eq_pos_or_neg b with h2 | h2
  · exact absurd (by rw [h1, h2, hv]) hne
  · rw [h2, ← hv, ← lit_not_pos, ← h1]
  · rw [h2, ← hv, ← lit_not_neg, ← h1]
  · exact absurd (by rw [h1, h2, hv]) hne

theorem pairwise_var_ne (comp : List Nat) (hnd : comp.Nodup)
    (hnp : ∀ l ∈ comp, lit_not l ∉ comp) :
    List.Pairwise (fun a b => var_of a ≠ var_of b) comp := by
  refine List.Pairwise.imp_of_mem ?_ hnd
  intro a b ha hb hne hveq
  exact hnp a ha ((eq_lit_not_of_var_eq a b hveq hne) ▸ hb)

theorem two_mem_split (comp : List Nat) (a b : Nat) (ha : a ∈ comp) (hb : b ∈ comp)
    (hne : a ≠ b) :
    ∃ u w r, comp = u ++ a :: w ++ b :: r ∨ comp = u ++ b :: w ++ a :: r := by
  rcases List.append_of_mem ha with ⟨u, t, ht⟩
  subst ht
  rcases List.mem_append.mp hb with hbu | hbt
  · rcases List.append_of_mem hbu with ⟨u2, w2, hu⟩
    subst hu
    exact ⟨u2, w2, t, Or.inr (by simp)⟩
  · rw [List.mem_cons] at hbt
    rcases hbt with h | hbt
    · exact absurd h.symm hne
    · rcases List.append_of_mem hbt with ⟨w, r, htr⟩
      subst htr
      exact ⟨u, w, r, Or.inl (by simp)⟩

theorem root_not_in_prefix (front u w r : List Nat) (root l1 l2 : Nat)
    (hcomp : front ++ [root] = u ++ l1 :: (w ++ l2 :: r))
    (hnd : (front ++ [root]).Nodup) :
    root ∉ u ∧ l1 ≠ root ∧ root ∉ w := by
  have hassoc : u ++ l1 :: (w ++ l2 :: r) = (u ++ l1 :: w) ++ l2 :: r := by
    simp
  have hlast : ((u ++ l1 :: w) ++ l2 :: r).getLast? = some root := by
    rw [← hassoc, ← hcomp]
    exact List.getLast?_concat _
  rw [List.getLast?_append_of_ne_nil _ (by simp)] at hlast
  have hmem : root ∈ l2 :: r := List.mem_of_getLast?_eq_some hlast
  have hdisj : List.Disjoint (u ++ l1 :: w) (l2 :: r) := by
    apply List.disjoint_of_nodup_append
    rw [← hassoc, ← hcomp]
    exact hnd
  have hnp : root ∉ u ++ l1 :: w := fun hcon => hdisj hcon hmem
  refine ⟨fun h => hnp (by simp [h]), fun h => hnp (by simp [h]), fun h => hnp (by simp [h])⟩

/-- C7: processing an SCC whose dual component was not already handled.
With the component given in pop order as `front ++ [root]` (root popped last):
1. in preprocessing mode the representative is the smallest literal of the
   component;
2. in search mode it is a highest-activity literal of the component;
3. if the component has no complementary pair (and its variables are not
   already eliminated), `subst[l] := rep` is recorded for every other literal
   `l` — tag `ATAG_SUBST`, and the stored data denotes `rep` after the
   polarity adjustment — and no empty clause is added;
4. if the component is closed under negation (as every SCC of the
   skew-symmetric binary implication graph containing a complementary pair
   is) and contains a variable other than the representative's, the solver
   adds the empty clause (UNSAT). -/
theorem process_scc_spec (preprocess : Bool) (act : Nat → ℚ) (root : Nat)
    (st : SccState) (front : List Nat)
    (hdual : st.label (lit_not root) ≠ UINT32_MAX)
    (hnd : (front ++ [root]).Nodup) :
    (preprocess = true →
      scc_representative preprocess act root (front ++ [root]) ∈ front ++ [root] ∧
      ∀ l ∈ front ++ [root],
        scc_representative preprocess act root (front ++ [root]) ≤ l) ∧
    (preprocess = false →
      scc_representative preprocess act root (front ++ [root]) ∈ front ++ [root] ∧
      ∀ l ∈ front ++ [root],
        act l ≤ act (scc_representative preprocess act root (front ++ [root]))) ∧
    ((∀ l ∈ front ++ [root], lit_not l ∉ front ++ [root]) →
     (∀ l ∈ front ++ [root], var_is_eliminated st (var_of l) = false) →
      (process_scc preprocess act root st (front ++ [root])).has_empty_clause =
          st.has_empty_clause ∧
      (∀ l ∈ front ++ [root],
        l ≠ scc_representative preprocess act root (front ++ [root]) →
        (process_scc preprocess act root st (front ++ [root])).ante_tag (var_of l) =
            ATag.subst ∧
        (process_scc preprocess act root st (front ++ [root])).ante_data (var_of l) ^^^
            sign_of_lit l =
          scc_representative preprocess act root (front ++ [root]))) ∧
    ((∀ l ∈ front ++ [root], lit_not l ∈ front ++ [root]) →
     (∃ l ∈ front ++ [root],
        var_of l ≠ var_of (scc_representative preprocess act root (front ++ [root]))) →
      (process_scc preprocess act root st (front ++ [root])).has_empty_clause = true) := by
  have hroot : root ∉ front := by
    intro hcon
    exact List.disjoint_of_nodup_append hnd hcon (by simp)
  have hskel : process_scc preprocess act root st (front ++ [root]) =
      process_scc_loop root (scc_representative preprocess act root (front ++ [root]))
        st (front ++ [root]) := by
    rw [process_scc, if_neg hdual]
  refine ⟨?_, ?_, ?_, ?_⟩
  · intro hp
    rcases scc_rep_preprocess_spec front root hroot root with ⟨hm, _, hall⟩
    rw [scc_representative, if_pos hp]
    refine ⟨?_, fun l hl => hall l hl⟩
    rcases hm with hm | hm
    · rw [hm]; simp
    · exact hm
  · intro hp
    rcases scc_rep_search_spec act front root hroot root with ⟨hm, _, hall⟩
    rw [scc_representative, if_neg (by rw [hp]; exact Bool.false_ne_true)]
    refine ⟨?_, fun l hl => hall l hl⟩
    rcases hm with hm | hm
    · rw [hm]; simp
    · exact hm
  · intro hnp helim
    have hpw : List.Pairwise (fun a b => var_of a ≠ var_of b) (front ++ [root]) :=
      pairwise_var_ne _ hnd hnp
    rcases process_scc_loop_no_pair
        (scc_representative preprocess act root (front ++ [root])) front root st
        hroot hpw helim with ⟨h1, h2, _⟩
    rw [hskel]
    refine ⟨h1, ?_⟩
    intro l hl hlr
    rcases h2 l hl hlr with ⟨ht, hd⟩
    refine ⟨ht, ?_⟩
    rw [hd, Nat.xor_assoc, Nat.xor_self, Nat.xor_zero]
  · intro hclo ⟨l, hl, hlv⟩
    have hl2 : lit_not l ∈ front ++ [root] := hclo l hl
    have hne : l ≠ lit_not l := (lit_not_ne l).symm
    rw [hskel]
    set rep := scc_representative preprocess act root (front ++ [root]) with hrep
    rcases two_mem_split (front ++ [root]) l (lit_not l) hl hl2 hne with ⟨u, w, r, hc | hc⟩
    · rcases root_not_in_prefix front u w r root l (lit_not l) (by simpa using hc) hnd
        with ⟨hu, h1r, hw⟩
      rw [hc]
      apply process_scc_loop_unsat
      · exact var_of_lit_not l |>.symm
      · intro hcon
        exact hlv (by rw [hcon])
      · exact h1r
      · exact hu
      · exact hw
    · rcases root_not_in_prefix front u w r root (lit_not l) l (by simpa using hc) hnd
        with ⟨hu, h1r, hw⟩
      rw [hc]
      apply process_scc_loop_unsat
      · exact var_of_lit_not l
      · intro hcon
        apply hlv
        rw [← var_of_lit_not l, hcon]
      · exact h1r
      · exact hu
      · exact hw

/-- Concrete SCC state for the C7 witness. -/
def stC7 : SccState where
  ante_tag := fun _ => .none
  ante_data := fun _ => 0
  label := fun _ => 0
  subst_vars := 0
  has_empty_clause := false
  status := .unknown

/-- Witness for `process_scc_spec`: component `{6, 8, 4}` with root 4, in
preprocessing mode. -/
theorem process_scc_spec_witness :
    stC7.label (lit_not 4) ≠ UINT32_MAX ∧ (([6, 8] : List Nat) ++ [4]).Nodup ∧
      (scc_representative true (fun _ => 0) 4 ([6, 8] ++ [4]) ∈ [6, 8] ++ [4] ∧
        ∀ l ∈ [6, 8] ++ [4],
          scc_representative true (fun _ => 0) 4 ([6, 8] ++ [4]) ≤ l) :=
  ⟨by decide, by decide,
    (process_scc_spec true (fun _ => 0) 4 stC7 [6, 8] (by decide) (by decide)).1 rfl⟩

end NewSatSolver
